import Mathlib

/-!
Verification of the LangForge Translation Merge & Placeholder-Integrity Engine
(`usr/share/langforge/core/translator.py`).

Text is modelled as `List Char`.  The three regular expressions in
`_FORMAT_PATTERNS` are deterministic on their alphabet, so each is embedded as
a matcher returning the length of the (unique) match starting at the front of
the input, if any.  Python's `re.finditer` (non-overlapping, leftmost,
resuming after each match) is embedded with explicit fuel so that every
definition is structurally recursive and closed terms reduce in the kernel.
-/

namespace LangForge

abbrev Text := List Char

/-- The conversion characters of the printf-style patterns, the character
class written `[sdifcr]` in the source. -/
def isConv (c : Char) : Bool :=
  c = 's' || c = 'd' || c = 'i' || c = 'f' || c = 'c' || c = 'r'

/-- After the closing paren of the named printf pattern, a conversion
character must follow; the returned number is the total match length. -/
def convAfter : Text → Nat → Option Nat
  | d :: _, n => if isConv d then some (n + 4) else none
  | [], _ => none

/-- Tail scanner for the named printf pattern (regex `%\([^)]+\)[sdifcr]` of
`_FORMAT_PATTERNS`): after the opening percent-paren, consume the non-empty
run of characters other than a closing paren, then require a closing paren
followed by a conversion character.  `n` counts the characters consumed so
far inside the run. -/
def namedBody : Text → Nat → Option Nat
  | [], _ => none
  | c :: cs, n =>
    if c = ')' then (if n = 0 then none else convAfter cs n)
    else namedBody cs (n + 1)

/-- Matcher for the first pattern of `_FORMAT_PATTERNS`:
`%\([^)]+\)[sdifcr]` (a percent, parenthesised name, conversion). -/
def matchNamed : Text → Option Nat
  | c1 :: c2 :: rest => if c1 = '%' then (if c2 = '(' then namedBody rest 0 else none) else none
  | _ => none

/-- Matcher for the second pattern of `_FORMAT_PATTERNS`: `%[sdifcr%]`. -/
def matchPercent : Text → Option Nat
  | c1 :: c2 :: _ => if c1 = '%' then (if isConv c2 || c2 = '%' then some 2 else none) else none
  | _ => none

/-- Tail scanner for the brace pattern: consume characters other than a
closing brace until the closing brace. -/
def braceBody : Text → Nat → Option Nat
  | [], _ => none
  | c :: cs, n => if c = '\x7d' then some (n + 2) else braceBody cs (n + 1)

/-- Matcher for the third pattern of `_FORMAT_PATTERNS`: an opening brace,
any run of non-closing-brace characters, a closing brace. -/
def matchBrace : Text → Option Nat
  | c :: rest => if c = '\x7b' then braceBody rest 0 else none
  | _ => none

/-- Python `pattern.finditer(text)`: non-overlapping matches, scanned left to
right, resuming right after each match.  The fuel argument strictly exceeds
no step: every recursive call consumes at least one character, so fuel equal
to the length of the scanned text suffices.  All matchers of
`_FORMAT_PATTERNS` return lengths of at least two, so the `some 0` case
(treated as no match) never occurs. -/
def finditerAux (m : Text → Option Nat) : Nat → Text → Nat → List (Nat × Nat × Text)
  | 0, _, _ => []
  | _ + 1, [], _ => []
  | fuel + 1, c :: cs, i =>
    match m (c :: cs) with
    | some (L + 1) => (i, i + L + 1, (c :: cs).take (L + 1)) :: finditerAux m fuel (cs.drop L) (i + L + 1)
    | _ => finditerAux m fuel cs (i + 1)

/-- All matches of one pattern as (start, end, matched text) triples. -/
def finditer (m : Text → Option Nat) (s : Text) : List (Nat × Nat × Text) :=
  finditerAux m s.length s 0

/-- Python `pattern.findall(text)` for the group-free patterns of the source:
the list of matched substrings. -/
def findall (m : Text → Option Nat) (s : Text) : List Text :=
  (finditer m s).map (fun x => x.2.2)

/-- `_FORMAT_PATTERNS`, in source order: named printf, positional printf,
brace. -/
def FORMAT_PATTERNS : List (Text → Option Nat) :=
  [matchNamed, matchPercent, matchBrace]

/-- A match triple: start offset, end offset, matched text. -/
abbrev PMatch := Nat × Nat × Text

/-- The `all_matches` collection loop of `_protect_placeholders`: the three
patterns of `_FORMAT_PATTERNS` scanned in order, results appended. -/
def allMatches (t : Text) : List PMatch :=
  finditer matchNamed t ++ finditer matchPercent t ++ finditer matchBrace t

/-- Stable insertion for `all_matches.sort(key=start, reverse=True)`: a new
element goes after existing elements whose start is at least as large, which
is exactly the placement of Python's stable descending sort. -/
def insertDesc (x : PMatch) : List PMatch → List PMatch
  | [] => [x]
  | y :: ys => if y.1 < x.1 then x :: y :: ys else y :: insertDesc x ys

/-- Python's stable sort by start offset, descending. -/
def sortDesc (ms : List PMatch) : List PMatch :=
  ms.foldl (fun acc x => insertDesc x acc) []

/-- One decimal digit. -/
def digitChar : Nat → Char
  | 0 => '0' | 1 => '1' | 2 => '2' | 3 => '3' | 4 => '4'
  | 5 => '5' | 6 => '6' | 7 => '7' | 8 => '8' | _ => '9'

/-- Decimal digits of a natural number, most significant first (fuel-based;
fuel `n + 1` always suffices since the argument at least halves). -/
def natDigitsAux : Nat → Nat → Text
  | 0, _ => []
  | fuel + 1, n => if n < 10 then [digitChar n] else natDigitsAux fuel (n / 10) ++ [digitChar (n % 10)]

/-- Python `str(n)` for a natural number. -/
def natDigits (n : Nat) : Text := natDigitsAux (n + 1) n

/-- The protection token with index `k`, Python's f-string `<x{k}/>`
(a self-closing XML-ish tag). -/
def token (k : Nat) : Text :=
  '<' :: 'x' :: natDigits k ++ ['/', '>']

/-- The replacement loop of `_protect_placeholders`: matches are processed in
the given (descending-start) order; each gets the token with the current
counter value, the span is spliced out of the working text, and the counter
decreases. -/
def protectGo : List PMatch → Nat → Text → Text × List (Text × Text)
  | [], _, t => (t, [])
  | (s, e, p) :: rest, c, t =>
    let tok := token c
    let t' := t.take s ++ tok ++ t.drop e
    let r := protectGo rest (c - 1) t'
    (r.1, (tok, p) :: r.2)

/-- `_protect_placeholders`: collect all matches of the three patterns, sort
by start descending, replace back to front assigning tokens
highest-index-first, finally reverse the accumulated token list. -/
def _protect_placeholders (t : Text) : Text × List (Text × Text) :=
  let ms := sortDesc (allMatches t)
  let r := protectGo ms ms.length t
  (r.1, r.2.reverse)

/-- Python `str.replace(old, new)` on `List Char` (all non-overlapping
occurrences, left to right, the replacement text is not rescanned), with fuel
equal to the length of the scanned text.  Every step consumes at least one
character when the pattern is non-empty. -/
def replaceAllAux (pat rep : Text) : Nat → Text → Text
  | 0, s => s
  | _ + 1, [] => []
  | fuel + 1, c :: cs =>
    if pat.isPrefixOf (c :: cs) then rep ++ replaceAllAux pat rep fuel ((c :: cs).drop pat.length)
    else c :: replaceAllAux pat rep fuel cs

/-- Python `s.replace(pat, rep)`.  The engine never calls it with an empty
pattern (tokens and token variants are non-empty); the guard keeps the
function total. -/
def replaceAll (s pat rep : Text) : Text :=
  if pat.isEmpty then s else replaceAllAux pat rep s.length s

/-- `_restore_placeholders`: for each (token, original) pair in order,
replace the exact token, then the token with the self-closing slash preceded
by an extra space (the source computes it as `token.replace("/>", " />")`). -/
def _restore_placeholders (text : Text) (tokens : List (Text × Text)) : Text :=
  tokens.foldl
    (fun t tp => replaceAll (replaceAll t tp.1 tp.2) (replaceAll tp.1 ['/', '>'] [' ', '/', '>']) tp.2)
    text

/-- Lexicographic comparison of texts by character code, the order Python's
`sorted` uses on strings.  (Any linear order yields the same equality test of
sorted lists, which is all `_validate_placeholders` observes.) -/
def textLe : Text → Text → Bool
  | [], _ => true
  | _ :: _, [] => false
  | a :: as, b :: bs => if a = b then textLe as bs else decide (a < b)

/-- Stable ascending insertion: a new element goes after existing elements
that compare less-or-equal. -/
def insertAsc (x : Text) : List Text → List Text
  | [] => [x]
  | y :: ys => if textLe y x then y :: insertAsc x ys else x :: y :: ys

/-- Python `sorted` on a list of strings (stable; equal keys are identical
strings here, so any correct sort produces this result). -/
def pySorted (l : List Text) : List Text :=
  l.foldl (fun acc x => insertAsc x acc) []

/-- `_validate_placeholders`: for every pattern family, the sorted list of
matches in the original must equal the sorted list of matches in the
translation. -/
def _validate_placeholders (original translated : Text) : Bool :=
  FORMAT_PATTERNS.all (fun m => pySorted (findall m original) == pySorted (findall m translated))

/-- Python's `\s` on the ASCII range (the engine's texts; exotic Unicode
whitespace is out of scope of the modelled strings). -/
def isPySpace (c : Char) : Bool :=
  c = ' ' || c = '\t' || c = '\n' || c = '\r' || c = '\x0b' || c = '\x0c'

/-- Length of the maximal prefix run of characters matching the class
"neither a closing brace nor whitespace" (the `[^}\s]*` part of the repair
regex in `_fix_placeholders`). -/
def runNB : Text → Nat
  | [] => 0
  | c :: cs => if c = '\x7d' || isPySpace c then 0 else runNB cs + 1

/-- Length of the match of the repair regex (escaped leading character, then
`[^}\s]*`, then a negative lookahead for a closing brace) at the front of the
text, if it matches there.  The greedy run backtracks by exactly one
character when the lookahead sees a closing brace, and fails only when the
run is empty and a closing brace follows immediately. -/
def corruptedMatchAt (lead : Char) : Text → Option Nat
  | [] => none
  | c :: cs =>
    if c = lead then
      let R := runNB cs
      match cs.drop R with
      | '\x7d' :: _ => if R = 0 then none else some R
      | _ => some (R + 1)
    else none

/-- Python `corrupted.search(translated)`: the leftmost position where the
repair regex matches, returned as a (start, end) span. -/
def corruptedSearch (lead : Char) : Text → Nat → Option (Nat × Nat)
  | [], _ => none
  | c :: cs, i =>
    match corruptedMatchAt lead (c :: cs) with
    | some L => some (i, i + L)
    | none => corruptedSearch lead cs (i + 1)

/-- Python `str.rstrip()` (ASCII whitespace, see `isPySpace`). -/
def rstrip (t : Text) : Text :=
  (t.reverse.dropWhile isPySpace).reverse

/-- The inner loop of `_fix_placeholders` for one pattern family: iterate the
matches found in the original; each match absent from `transMatches` (which
the source computes once before the loop and never refreshes) triggers the
repair: splice the placeholder over the leftmost corrupted fragment, or
append it after stripping trailing whitespace.  A match is never the empty
string (all patterns match at least two characters), so the empty case is
unreachable and returns the text unchanged. -/
def fixLoop (transMatches : List Text) : List Text → Text → Text
  | [], tr => tr
  | ph :: rest, tr =>
    let tr' :=
      if transMatches.contains ph then tr
      else
        match ph with
        | [] => tr
        | c :: _ =>
          match corruptedSearch c tr 0 with
          | some (s, e) => tr.take s ++ ph ++ tr.drop e
          | none => rstrip tr ++ ' ' :: ph
    fixLoop transMatches rest tr'

/-- `_fix_placeholders`: for each pattern family in order, compute the
original's and the (current) translation's matches, then run the repair
loop. -/
def _fix_placeholders (original translated : Text) : Text :=
  FORMAT_PATTERNS.foldl (fun tr m => fixLoop (findall m tr) (findall m original) tr) translated

/-! ### The catalog model

Entries are polib `POEntry` objects restricted to the fields the engine
reads and writes.  The polib convenience accessors used by
`translate_language` are modelled from polib's documented semantics (polib is
an external dependency, not part of this repository): an entry is translated
iff it is not obsolete and its `msgstr` is non-empty (plural forms are not
used by this engine); `fuzzy` means the flag list contains the string
"fuzzy"; `untranslated_entries()` returns the non-obsolete, non-fuzzy,
untranslated entries in catalog order; `fuzzy_entries()` the non-obsolete
fuzzy ones in catalog order. -/

structure POEntry where
  msgid : Text
  msgstr : Text
  flags : List String
  obsolete : Bool := false
deriving DecidableEq

def POEntry.translated (e : POEntry) : Bool :=
  !e.obsolete && !e.msgstr.isEmpty

def POEntry.fuzzy (e : POEntry) : Bool :=
  e.flags.contains "fuzzy"

def untranslated_entries (po : List POEntry) : List POEntry :=
  po.filter (fun e => !e.translated && !e.obsolete && !e.fuzzy)

def fuzzy_entries (po : List POEntry) : List POEntry :=
  po.filter (fun e => e.fuzzy && !e.obsolete)

/-- The selection `list(po.untranslated_entries()) + list(po.fuzzy_entries())`
of `translate_language`. -/
def entries_to_translate (po : List POEntry) : List POEntry :=
  untranslated_entries po ++ fuzzy_entries po

/-- The selection as claim C8 words it (for comparison with the source's
`entries_to_translate`): the entries that are untranslated or fuzzy, in
catalog order, with empty-msgid entries excluded. -/
def entriesNeedingTranslationSpec (po : List POEntry) : List POEntry :=
  po.filter (fun e => !e.msgid.isEmpty && (e.msgstr.isEmpty || e.flags.contains "fuzzy"))

/-- The body of the per-entry loop of `translate_language`.  The provider
call is the only fallible operation inside the `try`; its failure is the
`except` branch (mark fuzzy if not already, fill an empty msgstr with the
msgid).  On success: restore tokens (only when the token map is non-empty,
as in the source), validate, on failure repair and re-validate, on repeated
failure fall back to the msgid and append the fuzzy flag; commit the msgstr;
remove the fuzzy flag if the final validation passes; report whether the
counter was incremented.  The source mutates the entry in place; the model
returns the updated entry. -/
def processEntry (api : Text → Except String Text) (entry : POEntry) : POEntry × Bool :=
  if entry.msgid.isEmpty then (entry, false)
  else
    let pr := _protect_placeholders entry.msgid
    match api pr.1 with
    | Except.error _ =>
      let flags := if entry.flags.contains "fuzzy" then entry.flags else entry.flags ++ ["fuzzy"]
      let msgstr := if entry.msgstr.isEmpty then entry.msgid else entry.msgstr
      ({ entry with flags := flags, msgstr := msgstr }, false)
    | Except.ok t0 =>
      let translation := if pr.2.isEmpty then t0 else _restore_placeholders t0 pr.2
      let st :=
        if _validate_placeholders entry.msgid translation then (translation, entry.flags)
        else
          let fixed := _fix_placeholders entry.msgid translation
          if _validate_placeholders entry.msgid fixed then (fixed, entry.flags)
          else
            (entry.msgid,
             if entry.flags.contains "fuzzy" then entry.flags else entry.flags ++ ["fuzzy"])
      let flags2 :=
        if _validate_placeholders entry.msgid st.1 then
          if st.2.contains "fuzzy" then st.2.erase "fuzzy" else st.2
        else st.2
      ({ entry with msgstr := st.1, flags := flags2 }, true)

/-- The whole per-entry loop of `translate_language`: the updated entries in
order and the final `translated_count`. -/
def translate_entries (api : Text → Except String Text) : List POEntry → List POEntry × Nat
  | [] => ([], 0)
  | e :: rest =>
    let r := processEntry api e
    let rr := translate_entries api rest
    (r.1 :: rr.1, (if r.2 then 1 else 0) + rr.2)

/-- polib `POFile.merge(refpot)` (external dependency, modelled from its
documented semantics, which §4.3 of the specification restates): entries
whose msgid appears in the template are kept as-is, entries absent from the
template are marked obsolete, msgids only in the template are appended. -/
def mergePo (po pot : List POEntry) : List POEntry :=
  po.map (fun e => if pot.any (fun p => p.msgid == e.msgid) then e else { e with obsolete := true })
    ++ pot.filter (fun p => !po.any (fun e => e.msgid == p.msgid))

/-- `translate_language`, with the filesystem abstracted: `pot = none` means
the template file does not exist, in which case `polib.pofile` raises (the
`Except.error`).  `existing` is the persisted catalog for the language, if
any.  Returns the `translated_count` of the source. -/
def translate_language (pot : Option (List POEntry)) (existing : Option (List POEntry))
    (api : Text → Except String Text) : Except String Nat :=
  match pot with
  | none => Except.error "no such file or directory"
  | some potE =>
    let po := match existing with
      | some poE => mergePo poE potE
      | none => potE
    Except.ok (translate_entries api (entries_to_translate po)).2

/-- The keys of `SUPPORTED_LANGUAGES` (`core/languages.py`), in insertion
order. -/
def SUPPORTED_LANGUAGES : List String :=
  ["bg", "cs", "da", "de", "el", "en", "es", "et", "fi", "fr", "he", "hr", "hu", "is",
   "it", "ja", "ko", "nl", "no", "pl", "pt-BR", "pt", "ro", "ru", "sk", "sv", "tr", "uk", "zh"]

/-- `translate_project`: iterate the supported languages in order; each
language's `translate_language` runs inside a try/except recording a success
boolean keyed by the language (the results dict, modelled as an ordered
association list; the progress callback carries no data the claims
mention). -/
def translate_project (pot : Option (List POEntry))
    (existingFor : String → Option (List POEntry))
    (api : String → Text → Except String Text) : List (String × Bool) :=
  SUPPORTED_LANGUAGES.map (fun lang =>
    (lang,
     match translate_language pot (existingFor lang) (api lang) with
     | Except.ok _ => true
     | Except.error _ => false))

/-! ### Canonical descriptions of the protected text

These definitions describe, from the original text and its match list read
left to right, what `_protect_placeholders` produces: they are the
specification side of the token-numbering and round-trip claims. -/

/-- The slice of `t` from `s` (inclusive) to `e` (exclusive). -/
def slice (t : Text) (s e : Nat) : Text := (t.drop s).take (e - s)

/-- Two match spans do not overlap. -/
def MDisj (a b : PMatch) : Prop := a.2.1 ≤ b.1 ∨ b.2.1 ≤ a.1

instance : ∀ a b : PMatch, Decidable (MDisj a b) := fun a b => by
  unfold MDisj; exact inferInstance

/-- A well-formed match of `t`: a non-empty span inside `t` whose payload is
the corresponding slice of `t`. -/
def MatchWF (t : Text) (m : PMatch) : Prop :=
  m.1 < m.2.1 ∧ m.2.1 ≤ t.length ∧ m.2.2 = slice t m.1 m.2.1

/-- Matches in ascending start order: each well formed, each starting at or
after `pos`, each ending at or before the next begins. -/
def AscChain (t : Text) : Nat → List PMatch → Prop
  | _, [] => True
  | pos, m :: rest => pos ≤ m.1 ∧ MatchWF t m ∧ AscChain t m.2.1 rest

/-- Spans in descending start order inside a bound (the shape in which the
replacement loop of `_protect_placeholders` consumes its sorted matches). -/
def SpanChain : Nat → List PMatch → Prop
  | _, [] => True
  | bound, m :: rest => m.1 < m.2.1 ∧ m.2.1 ≤ bound ∧ SpanChain m.1 rest

/-- A well-formed descending chain of matches of `t`. -/
def DescChain (t : Text) : Nat → List PMatch → Prop
  | _, [] => True
  | bound, m :: rest => MatchWF t m ∧ m.2.1 ≤ bound ∧ DescChain t m.1 rest

/-- The canonical protected text from position `pos` on: the segments of `t`
between consecutive matches, interleaved with tokens numbered ascending from
`k`. -/
def tailGlue (t : Text) : Nat → Nat → List PMatch → Text
  | pos, _, [] => t.drop pos
  | pos, k, m :: rest => (t.drop pos).take (m.1 - pos) ++ token k ++ tailGlue t m.2.1 (k + 1) rest

/-- The canonical token map: tokens numbered ascending from `k`, paired with
the matches' payloads in match order. -/
def tokenPairs : Nat → List PMatch → List (Text × Text)
  | _, [] => []
  | k, m :: rest => (token k, m.2.2) :: tokenPairs (k + 1) rest

/-- The matches of `t` in ascending start order: the source's descending
stable sort, reversed. -/
def ascMatches (t : Text) : List PMatch := (sortDesc (allMatches t)).reverse

/-- Intermediate description of `protectGo`'s text on a descending chain. -/
def descGlue (t : Text) : Nat → List PMatch → Text
  | _, [] => t
  | c, m :: rest => descGlue (t.take m.1) (c - 1) rest ++ token c ++ t.drop m.2.1

/-- Intermediate description of `protectGo`'s token list on a descending
chain. -/
def descPairs : Nat → List PMatch → List (Text × Text)
  | _, [] => []
  | c, m :: rest => (token c, m.2.2) :: descPairs (c - 1) rest

/-- The corrupted token variant the restore loop also replaces (an extra
space before the self-closing slash), in closed form. -/
def tokenVariant (k : Nat) : Text :=
  '<' :: 'x' :: natDigits k ++ [' ', '/', '>']

/-- A pattern the restore loop replaces for index `i`: the exact token or
its space variant. -/
def TokLike (i : Nat) (pat : Text) : Prop := pat = token i ∨ pat = tokenVariant i

/-- Numeric value of a decimal digit character. -/
def digVal (c : Char) : Nat := c.toNat - '0'.toNat

/-- Numeric value of a decimal digit string. -/
def textVal (l : Text) : Nat := l.foldl (fun a c => 10 * a + digVal c) 0

/-! ### Helper lemmas -/

theorem translate_entries_fst (api : Text → Except String Text) (es : List POEntry) :
    (translate_entries api es).1 = es.map (fun e => (processEntry api e).1) := by
  induction es with
  | nil => rfl
  | cons e rest ih => simp [translate_entries, ih]

theorem contains_fuzzy_iff (l : List String) : l.contains "fuzzy" = true ↔ "fuzzy" ∈ l :=
  List.elem_iff

theorem fixLoop_of_contains (tm : List Text) :
    ∀ (ms : List Text) (tr : Text), (∀ ph ∈ ms, tm.contains ph = true) → fixLoop tm ms tr = tr := by
  intro ms
  induction ms with
  | nil => intro tr _; rfl
  | cons ph rest ih =>
    intro tr h
    have hph : tm.contains ph = true := h ph (by simp)
    simp only [fixLoop, hph, if_pos]
    exact ih tr (fun q hq => h q (by simp [hq]))

/-! ### Decimal digits and tokens -/

theorem natDigitsAux_eq (n : Nat) :
    ∀ f f', n < f → n < f' → natDigitsAux f n = natDigitsAux f' n := by
  induction n using Nat.strong_induction_on with
  | _ n ih =>
    intro f f' hf hf'
    cases f with
    | zero => omega
    | succ f =>
      cases f' with
      | zero => omega
      | succ f' =>
        by_cases h10 : n < 10
        · simp [natDigitsAux, h10]
        · have hd : n / 10 < n := Nat.div_lt_self (by omega) (by omega)
          simp only [natDigitsAux, h10, if_false]
          rw [ih (n / 10) hd f f' (by omega) (by omega)]

theorem natDigits_lt {n : Nat} (h : n < 10) : natDigits n = [digitChar n] := by
  simp [natDigits, natDigitsAux, h]

theorem natDigits_ge {n : Nat} (h : ¬ n < 10) :
    natDigits n = natDigits (n / 10) ++ [digitChar (n % 10)] := by
  have hd : n / 10 < n := Nat.div_lt_self (by omega) (by omega)
  show natDigitsAux (n + 1) n = _
  simp only [natDigitsAux, h, if_false]
  rw [natDigitsAux_eq (n / 10) n (n / 10 + 1) (by omega) (by omega)]
  rfl

theorem digitChar_isDigit {n : Nat} (h : n < 10) : (digitChar n).isDigit = true := by
  interval_cases n <;> decide

theorem natDigits_digits (n : Nat) : ∀ c ∈ natDigits n, c.isDigit = true := by
  induction n using Nat.strong_induction_on with
  | _ n ih =>
    by_cases h10 : n < 10
    · rw [natDigits_lt h10]
      intro c hc
      rw [List.mem_singleton] at hc
      subst hc
      exact digitChar_isDigit h10
    · rw [natDigits_ge h10]
      intro c hc
      rcases List.mem_append.mp hc with h | h
      · exact ih (n / 10) (Nat.div_lt_self (by omega) (by omega)) c h
      · rw [List.mem_singleton] at h
        subst h
        exact digitChar_isDigit (Nat.mod_lt _ (by omega))

theorem textVal_append_digit (l : Text) (c : Char) :
    textVal (l ++ [c]) = 10 * textVal l + digVal c := by
  simp [textVal, List.foldl_append]

theorem digVal_digitChar {n : Nat} (h : n < 10) : digVal (digitChar n) = n := by
  interval_cases n <;> decide

theorem textVal_natDigits (n : Nat) : textVal (natDigits n) = n := by
  induction n using Nat.strong_induction_on with
  | _ n ih =>
    by_cases h10 : n < 10
    · rw [natDigits_lt h10]
      show textVal ([] ++ [digitChar n]) = n
      rw [textVal_append_digit]
      simp [textVal, digVal_digitChar h10]
    · rw [natDigits_ge h10, textVal_append_digit,
        ih (n / 10) (Nat.div_lt_self (by omega) (by omega)),
        digVal_digitChar (Nat.mod_lt _ (by omega))]
      omega

theorem natDigits_inj {a b : Nat} (h : natDigits a = natDigits b) : a = b := by
  have ha := textVal_natDigits a
  rw [h, textVal_natDigits b] at ha
  omega

theorem token_injective : Function.Injective token := by
  intro a b h
  simp only [token] at h
  injection h with h1 h
  injection h with h2 h
  exact natDigits_inj (List.append_inj_left' h rfl)

/-- Splitting at a non-digit boundary: all-digit prefixes followed by
non-digit characters align exactly under the prefix order. -/
theorem digits_boundary {c d : Char} (hc : c.isDigit = false) (hd : d.isDigit = false) :
    ∀ xs ys : Text, (∀ x ∈ xs, x.isDigit = true) → (∀ y ∈ ys, y.isDigit = true) →
      ∀ u v : Text, (xs ++ c :: u) <+: (ys ++ d :: v) → xs = ys ∧ c = d ∧ u <+: v := by
  intro xs
  induction xs with
  | nil =>
    intro ys _ hys u v h
    cases ys with
    | nil =>
      rw [List.nil_append, List.nil_append] at h
      rcases List.cons_prefix_cons.mp h with ⟨h1, h2⟩
      exact ⟨rfl, h1, h2⟩
    | cons y ys' =>
      rw [List.nil_append, List.cons_append] at h
      rcases List.cons_prefix_cons.mp h with ⟨h1, _⟩
      have hy := hys y (List.mem_cons_self y ys')
      rw [← h1, hc] at hy
      exact absurd hy (by simp)
  | cons x xs' ih =>
    intro ys hxs hys u v h
    cases ys with
    | nil =>
      rw [List.cons_append, List.nil_append] at h
      rcases List.cons_prefix_cons.mp h with ⟨h1, _⟩
      have hx := hxs x (List.mem_cons_self x xs')
      rw [h1, hd] at hx
      exact absurd hx (by simp)
    | cons y ys' =>
      rw [List.cons_append, List.cons_append] at h
      rcases List.cons_prefix_cons.mp h with ⟨h1, h2⟩
      subst h1
      obtain ⟨e1, e2, e3⟩ := ih ys' (fun z hz => hxs z (List.mem_cons_of_mem x hz))
        (fun z hz => hys z (List.mem_cons_of_mem x hz)) u v h2
      exact ⟨by rw [e1], e2, e3⟩

theorem token_prefix_token {a b : Nat} (r : Text) (h : token a <+: token b ++ r) : a = b := by
  simp only [token, List.cons_append, List.append_assoc] at h
  rcases List.cons_prefix_cons.mp h with ⟨_, h⟩
  rcases List.cons_prefix_cons.mp h with ⟨_, h⟩
  have h' : natDigits a ++ '/' :: ['>'] <+: natDigits b ++ '/' :: ('>' :: r) := by
    simpa using h
  exact natDigits_inj (digits_boundary (by decide) (by decide) (natDigits a) (natDigits b)
    (natDigits_digits a) (natDigits_digits b) _ _ h').1

theorem variant_not_prefix_token {a b : Nat} (r : Text) (h : tokenVariant a <+: token b ++ r) :
    False := by
  simp only [tokenVariant, token, List.cons_append, List.append_assoc] at h
  rcases List.cons_prefix_cons.mp h with ⟨_, h⟩
  rcases List.cons_prefix_cons.mp h with ⟨_, h⟩
  have h' : natDigits a ++ ' ' :: ['/', '>'] <+: natDigits b ++ '/' :: ('>' :: r) := by
    simpa using h
  have := (digits_boundary (by decide) (by decide) (natDigits a) (natDigits b)
    (natDigits_digits a) (natDigits_digits b) _ _ h').2.1
  exact absurd this (by decide)

theorem token_not_prefix_variant {a b : Nat} (r : Text) (h : token a <+: tokenVariant b ++ r) :
    False := by
  simp only [tokenVariant, token, List.cons_append, List.append_assoc] at h
  rcases List.cons_prefix_cons.mp h with ⟨_, h⟩
  rcases List.cons_prefix_cons.mp h with ⟨_, h⟩
  have h' : natDigits a ++ '/' :: ['>'] <+: natDigits b ++ ' ' :: ('/' :: '>' :: r) := by
    simpa using h
  have := (digits_boundary (by decide) (by decide) (natDigits a) (natDigits b)
    (natDigits_digits a) (natDigits_digits b) _ _ h').2.1
  exact absurd this (by decide)

theorem token_tail_ne_lt (k : Nat) : ∀ c ∈ ('x' :: (natDigits k ++ ['/', '>'])), c ≠ '<' := by
  intro c hc
  rcases List.mem_cons.mp hc with rfl | hc
  · decide
  rcases List.mem_append.mp hc with hc | hc
  · intro he
    subst he
    exact absurd (natDigits_digits k '<' hc) (by decide)
  · rcases List.mem_cons.mp hc with rfl | hc
    · decide
    · rcases List.mem_cons.mp hc with rfl | hc
      · decide
      · exact absurd hc (List.not_mem_nil c)

theorem tokLike_shape {i : Nat} {pat : Text} (hp : TokLike i pat) :
    ∃ pr, pat = '<' :: 'x' :: pr := by
  rcases hp with rfl | rfl
  · exact ⟨_, rfl⟩
  · exact ⟨_, rfl⟩

theorem token_ne_nil (k : Nat) : token k ≠ [] := by simp [token]

/-! ### Occurrence splitting and Python replace -/

theorem prefix_split {α : Type} (p a b : List α) (h : p <+: a ++ b) :
    p <+: a ∨ ∃ q, p = a ++ q ∧ q <+: b := by
  induction a generalizing p with
  | nil => exact Or.inr ⟨p, rfl, by simpa using h⟩
  | cons x a' ih =>
    cases p with
    | nil => exact Or.inl (List.nil_prefix)
    | cons q p' =>
      rcases List.cons_prefix_cons.mp (by simpa using h) with ⟨rfl, h2⟩
      rcases ih p' h2 with h' | ⟨q2, he, hq⟩
      · exact Or.inl (List.cons_prefix_cons.mpr ⟨rfl, h'⟩)
      · exact Or.inr ⟨q2, by simp [he], hq⟩

theorem infix_append_split {α : Type} {p a b : List α} (h : p <:+: a ++ b) :
    p <:+: a ∨ p <:+: b ∨
      ∃ p₁ p₂, p = p₁ ++ p₂ ∧ p₁ ≠ [] ∧ p₂ ≠ [] ∧ p₁ <:+ a ∧ p₂ <+: b := by
  induction a with
  | nil => exact Or.inr (Or.inl (by simpa using h))
  | cons x a' ih =>
    obtain ⟨s, u, hs⟩ := h
    cases s with
    | cons y s' =>
      rw [List.cons_append, List.cons_append] at hs
      injection hs with h1 h2
      rcases ih ⟨s', u, h2⟩ with h' | h' | ⟨p₁, p₂, he, hn1, hn2, hs1, hp2⟩
      · exact Or.inl (List.infix_cons h')
      · exact Or.inr (Or.inl h')
      · exact Or.inr (Or.inr ⟨p₁, p₂, he, hn1, hn2, hs1.trans (List.suffix_cons x a'), hp2⟩)
    | nil =>
      rw [List.nil_append] at hs
      cases p with
      | nil => exact Or.inl List.nil_infix
      | cons q p' =>
        rw [List.cons_append] at hs
        injection hs with h1 h2
        subst h1
        have hp' : p' <+: a' ++ b := ⟨u, h2⟩
        rcases prefix_split p' a' b hp' with hpa | ⟨q2, hq, hq2⟩
        · exact Or.inl (List.IsPrefix.isInfix (List.cons_prefix_cons.mpr ⟨rfl, hpa⟩))
        · cases q2 with
          | nil =>
            rw [List.append_nil] at hq
            subst hq
            exact Or.inl (List.infix_refl _)
          | cons z q2' =>
            refine Or.inr (Or.inr ⟨q :: a', z :: q2', by simp [hq], by simp, by simp,
              List.suffix_refl _, hq2⟩)

theorem replaceAllAux_fuel {pat : Text} (rep : Text) (hp : pat ≠ []) :
    ∀ f f' (s : Text), s.length ≤ f → s.length ≤ f' →
      replaceAllAux pat rep f s = replaceAllAux pat rep f' s := by
  intro f
  induction f with
  | zero =>
    intro f' s hf hf'
    have : s = [] := by
      cases s with
      | nil => rfl
      | cons c cs => simp at hf
    subst this
    cases f' <;> rfl
  | succ f ih =>
    intro f' s hf hf'
    cases s with
    | nil => cases f' <;> rfl
    | cons c cs =>
      cases f' with
      | zero => simp at hf'
      | succ f'' =>
        simp only [replaceAllAux]
        by_cases hpre : pat.isPrefixOf (c :: cs) = true
        · rw [hpre]
          simp only [if_true]
          have hp1 : 1 ≤ pat.length := by
            cases pat with
            | nil => exact absurd rfl hp
            | cons _ _ => simp
          simp only [List.length_cons] at hf hf'
          have hlen : ((c :: cs).drop pat.length).length ≤ f := by
            simp only [List.length_drop, List.length_cons]
            omega
          have hlen' : ((c :: cs).drop pat.length).length ≤ f'' := by
            simp only [List.length_drop, List.length_cons]
            omega
          rw [ih f'' _ hlen hlen']
        · rw [Bool.not_eq_true] at hpre
          rw [hpre]
          simp only [Bool.false_eq_true, if_false]
          rw [ih f'' cs (by simpa using hf) (by simpa using hf')]

theorem replaceAllAux_no_match {pat : Text} (rep : Text) :
    ∀ (f : Nat) (s : Text), s.length ≤ f → ¬ pat <:+: s → replaceAllAux pat rep f s = s := by
  intro f
  induction f with
  | zero => intro s _ _; rfl
  | succ f ih =>
    intro s hl h
    cases s with
    | nil => rfl
    | cons c cs =>
      have hpre : pat.isPrefixOf (c :: cs) = false := by
        cases hx : pat.isPrefixOf (c :: cs)
        · rfl
        · exact absurd (List.IsPrefix.isInfix (List.isPrefixOf_iff_prefix.mp hx)) h
      simp only [replaceAllAux, hpre, Bool.false_eq_true, if_false]
      rw [ih cs (by simpa using hl) (fun hc => h (List.infix_cons hc))]

theorem replaceAll_no_match (s pat rep : Text) (h : ¬ pat <:+: s) :
    replaceAll s pat rep = s := by
  have hp : pat ≠ [] := by
    rintro rfl
    exact h List.nil_infix
  unfold replaceAll
  rw [if_neg (by simpa [List.isEmpty_iff] using hp)]
  exact replaceAllAux_no_match rep s.length s (le_refl _) h

theorem replaceAllAux_append {pat : Text} (rep b : Text) (hp : pat ≠ []) :
    ∀ (a : Text) (f : Nat), (a ++ pat ++ b).length ≤ f →
      (∀ a₂, a₂ <:+ a → a₂ ≠ [] → ¬ pat <+: (a₂ ++ (pat ++ b))) →
      replaceAllAux pat rep f (a ++ pat ++ b)
        = a ++ rep ++ replaceAllAux pat rep b.length b := by
  intro a
  induction a with
  | nil =>
    intro f hf _
    cases pat with
    | nil => exact absurd rfl hp
    | cons p0 pt =>
      rw [List.nil_append]
      cases f with
      | zero => simp at hf
      | succ f =>
        have hpre : (p0 :: pt).isPrefixOf ((p0 :: pt) ++ b) = true :=
          List.isPrefixOf_iff_prefix.mpr (List.prefix_append _ _)
        rw [List.cons_append]
        simp only [replaceAllAux]
        rw [show (p0 :: (pt ++ b)) = (p0 :: pt) ++ b from rfl, hpre]
        simp only [if_true]
        rw [List.drop_left]
        rw [replaceAllAux_fuel rep hp f b.length b (by simp at hf; omega) (le_refl _)]
        simp
  | cons x a' ih =>
    intro f hf h
    cases f with
    | zero => simp at hf
    | succ f =>
      have hnpre : pat.isPrefixOf ((x :: a') ++ pat ++ b) = false := by
        cases hx : pat.isPrefixOf ((x :: a') ++ pat ++ b)
        · rfl
        · have := List.isPrefixOf_iff_prefix.mp hx
          rw [List.append_assoc] at this
          exact absurd this (h (x :: a') (List.suffix_refl _) (by simp))
      rw [show (x :: a') ++ pat ++ b = x :: (a' ++ pat ++ b) by simp] at hnpre ⊢
      simp only [replaceAllAux, hnpre, Bool.false_eq_true, if_false]
      rw [ih f (by simp at hf ⊢; omega) ?_]
      · simp
      · intro a₂ hsuf hne
        exact h a₂ (hsuf.trans (List.suffix_cons x a')) hne

theorem replaceAll_append {pat : Text} (rep b : Text) (hp : pat ≠ []) (a : Text)
    (h : ∀ a₂, a₂ <:+ a → a₂ ≠ [] → ¬ pat <+: (a₂ ++ (pat ++ b))) :
    replaceAll (a ++ pat ++ b) pat rep = a ++ rep ++ replaceAll b pat rep := by
  unfold replaceAll
  rw [if_neg (by simpa [List.isEmpty_iff] using hp), if_neg (by simpa [List.isEmpty_iff] using hp)]
  exact replaceAllAux_append rep b hp a _ (le_refl _) h

/-! ### Where token-shaped patterns can and cannot occur -/

theorem slice_in_original (t : Text) (pos n : Nat) : (t.drop pos).take n <:+: t :=
  (List.take_prefix n (t.drop pos)).isInfix.trans (List.drop_suffix pos t).isInfix

theorem take_merge (t : Text) {pos n : Nat} (h : pos ≤ n) :
    t.take pos ++ (t.drop pos).take (n - pos) = t.take n := by
  rw [← List.drop_take]
  have h1 : t.take pos = (t.take n).take pos := by
    rw [List.take_take, Nat.min_eq_left h]
  rw [h1, List.take_append_drop]

/-- A token-shaped pattern cannot occur inside any fragment of a text that
has no angle-x pair. -/
theorem not_infix_of_front {t : Text} (hnox : ¬ (['<', 'x'] <:+: t)) {A : Text} {i : Nat}
    {pat : Text} (hp : TokLike i pat) (hA : A <:+: t) : ¬ pat <:+: A := by
  intro h
  obtain ⟨pr, rfl⟩ := tokLike_shape hp
  have hLX : ['<', 'x'] <+: '<' :: 'x' :: pr :=
    List.cons_prefix_cons.mpr ⟨rfl, List.cons_prefix_cons.mpr ⟨rfl, List.nil_prefix⟩⟩
  exact hnox ((hLX.isInfix.trans h).trans hA)

/-- A token-shaped pattern occurring inside a token identifies the index. -/
theorem tokLike_infix_token {i k : Nat} {pat : Text} (hp : TokLike i pat)
    (h : pat <:+: token k) : i = k := by
  obtain ⟨s, u, hs⟩ := h
  cases s with
  | nil =>
    have hpre : pat <+: token k := ⟨u, by simpa using hs⟩
    rcases hp with rfl | rfl
    · exact token_prefix_token [] (by simpa using hpre)
    · exact absurd (show tokenVariant i <+: token k ++ [] by simpa using hpre)
        (fun hh => variant_not_prefix_token [] hh)
  | cons c s' =>
    obtain ⟨pr, hpr⟩ := tokLike_shape hp
    exfalso
    rw [show token k = '<' :: ('x' :: (natDigits k ++ ['/', '>'])) from rfl] at hs
    simp only [List.cons_append, List.append_assoc] at hs
    injection hs with h1 h2
    have hmem : '<' ∈ s' ++ (pat ++ u) := by
      rw [List.mem_append, List.mem_append, hpr]
      exact Or.inr (Or.inl (List.mem_cons_self _ _))
    rw [h2] at hmem
    exact token_tail_ne_lt k '<' hmem rfl

/-- A token-shaped pattern cannot straddle the boundary between a token and
what follows it. -/
theorem straddle_token {i k : Nat} {pat p₁ p₂ : Text} (hp : TokLike i pat)
    (hsplit : pat = p₁ ++ p₂) (hn1 : p₁ ≠ []) (hn2 : p₂ ≠ []) (hs : p₁ <:+ token k) :
    False := by
  obtain ⟨pr, hpr⟩ := tokLike_shape hp
  cases p₁ with
  | nil => exact hn1 rfl
  | cons c p₁' =>
    have hc : c = '<' := by
      rw [hpr, List.cons_append] at hsplit
      injection hsplit with h1 _
      exact h1.symm
    subst hc
    obtain ⟨s, hsuf⟩ := hs
    cases s with
    | nil =>
      rw [List.nil_append] at hsuf
      have hkpre : token k <+: pat := ⟨p₂, by rw [← hsuf]; exact hsplit.symm⟩
      rcases hp with rfl | rfl
      · have hik : k = i := token_prefix_token [] (by simpa using hkpre)
        have h1 : ('<' :: p₁').length = (token i).length := by rw [hsuf, hik]
        have h2 := congrArg List.length hsplit
        simp only [List.length_cons, List.length_append] at h1 h2
        cases p₂ with
        | nil => exact hn2 rfl
        | cons _ _ => simp at h2; omega
      · exact token_not_prefix_variant [] (by simpa using hkpre)
    | cons c₁ s' =>
      rw [show token k = '<' :: ('x' :: (natDigits k ++ ['/', '>'])) from rfl,
        List.cons_append] at hsuf
      injection hsuf with h1 h2
      have hmem : '<' ∈ s' ++ '<' :: p₁' := by
        rw [List.mem_append]
        exact Or.inr (List.mem_cons_self _ _)
      rw [h2] at hmem
      exact token_tail_ne_lt k '<' hmem rfl

/-- No occurrence of a lower-numbered token-shaped pattern in a fragment of
the form: text-fragment, token `k`, rest. -/
theorem noOcc_append {t : Text} (hnox : ¬ (['<', 'x'] <:+: t)) {i k : Nat} {pat A R : Text}
    (hp : TokLike i pat) (hik : i ≠ k) (hA : A <:+: t) (hR : ¬ pat <:+: R) :
    ¬ pat <:+: (A ++ (token k ++ R)) := by
  intro h
  rcases infix_append_split h with h | h | ⟨p₁, p₂, he, hn1, hn2, hs1, hp2⟩
  · exact not_infix_of_front hnox hp hA h
  · rcases infix_append_split h with h | h | ⟨p₁, p₂, he, hn1, hn2, hs1, hp2⟩
    · exact hik (tokLike_infix_token hp h)
    · exact hR h
    · exact straddle_token hp he hn1 hn2 hs1
  · obtain ⟨pr, hpr⟩ := tokLike_shape hp
    cases p₁ with
    | nil => exact hn1 rfl
    | cons c p₁' =>
      have hc : c = '<' := by
        rw [hpr, List.cons_append] at he
        injection he with h1 _
        exact h1.symm
      subst hc
      cases p₁' with
      | nil =>
        have hp2x : p₂ = 'x' :: pr := by
          rw [hpr] at he
          simpa using he.symm
        rw [hp2x, show token k ++ R = '<' :: ('x' :: (natDigits k ++ ['/', '>']) ++ R) by
          simp [token]] at hp2
        rcases List.cons_prefix_cons.mp hp2 with ⟨h1, _⟩
        exact absurd h1 (by decide)
      | cons c₂ p₁'' =>
        have hc₂ : c₂ = 'x' := by
          rw [hpr, List.cons_append, List.cons_append] at he
          injection he with _ he'
          injection he' with h1 _
          exact h1.symm
        subst hc₂
        have hLX : ['<', 'x'] <+: ('<' :: 'x' :: p₁'') :=
          List.cons_prefix_cons.mpr ⟨rfl, List.cons_prefix_cons.mpr ⟨rfl, List.nil_prefix⟩⟩
        exact hnox ((hLX.isInfix.trans hs1.isInfix).trans hA)

/-- No occurrence of a lower-numbered token-shaped pattern in the canonical
protected suffix. -/
theorem noOcc_tailGlue {t : Text} (hnox : ¬ (['<', 'x'] <:+: t)) {i : Nat} {pat : Text}
    (hp : TokLike i pat) :
    ∀ (ms : List PMatch) (pos k : Nat), AscChain t pos ms → i < k →
      ¬ pat <:+: tailGlue t pos k ms := by
  intro ms
  induction ms with
  | nil =>
    intro pos k _ _ h
    exact not_infix_of_front hnox hp (List.drop_suffix pos t).isInfix h
  | cons m rest ih =>
    intro pos k hch hik h
    obtain ⟨hpos, hwf, hch'⟩ := hch
    rw [tailGlue, List.append_assoc] at h
    exact noOcc_append hnox hp (by omega) (slice_in_original t pos (m.1 - pos))
      (ih m.2.1 (k + 1) hch' (by omega)) h

/-- No occurrence of a lower-numbered token-shaped pattern in the state of
the restore loop (original prefix restored up to `pos`, canonical suffix
beyond). -/
theorem noOcc_state {t : Text} (hnox : ¬ (['<', 'x'] <:+: t)) {i : Nat} {pat : Text}
    (hp : TokLike i pat) :
    ∀ (ms : List PMatch) (pos k : Nat), AscChain t pos ms → i < k →
      ¬ pat <:+: (t.take pos ++ tailGlue t pos k ms) := by
  intro ms pos k hch hik h
  cases ms with
  | nil =>
    rw [tailGlue, List.take_append_drop] at h
    exact not_infix_of_front hnox hp (List.infix_refl t) h
  | cons m rest =>
    obtain ⟨hpos, hwf, hch'⟩ := hch
    rw [tailGlue, ← List.append_assoc, ← List.append_assoc, take_merge t hpos,
      List.append_assoc] at h
    exact noOcc_append hnox hp (by omega) ((List.take_prefix m.1 t).isInfix)
      (noOcc_tailGlue hnox hp rest m.2.1 (k + 1) hch' (by omega)) h

/-- Discharges the head-occurrence condition of `replaceAll_append` for the
restore loop: no token-shaped pattern starts inside the already-restored
prefix. -/
theorem not_prefix_seg {t : Text} (hnox : ¬ (['<', 'x'] <:+: t)) {A : Text} (hA : A <:+: t)
    {i : Nat} {pat : Text} (hp : TokLike i pat) {b : Text} (hb : b.head? ≠ some 'x') :
    ∀ a₂, a₂ <:+ A → a₂ ≠ [] → ¬ pat <+: (a₂ ++ b) := by
  intro a₂ hsuf hne hpre
  obtain ⟨pr, hpr⟩ := tokLike_shape hp
  subst hpr
  cases a₂ with
  | nil => exact hne rfl
  | cons c a₂' =>
    rcases List.cons_prefix_cons.mp (by simpa using hpre) with ⟨h1, h2⟩
    cases a₂' with
    | nil =>
      cases b with
      | nil =>
        obtain ⟨w, hw⟩ := h2
        simp at hw
      | cons d b' =>
        rcases List.cons_prefix_cons.mp (by simpa using h2) with ⟨h3, _⟩
        exact hb (by simp [← h3])
    | cons c₂ a₂'' =>
      rcases List.cons_prefix_cons.mp h2 with ⟨h3, _⟩
      have hLX : ['<', 'x'] <+: (c :: c₂ :: a₂'') := by
        rw [← h1, ← h3]
        exact List.cons_prefix_cons.mpr ⟨rfl, List.cons_prefix_cons.mpr ⟨rfl, List.nil_prefix⟩⟩
      exact hnox ((hLX.isInfix.trans hsuf.isInfix).trans hA)

/-! ### The restore loop undoes the canonical protection -/

theorem replaceAllAux_nil (pat rep : Text) : ∀ f, replaceAllAux pat rep f [] = [] := by
  intro f
  cases f <;> rfl

theorem replaceAllAux_no_slash :
    ∀ (pre : Text) (f : Nat), (∀ c ∈ pre, c ≠ '/') → (pre ++ ['/', '>']).length ≤ f →
      replaceAllAux ['/', '>'] [' ', '/', '>'] f (pre ++ ['/', '>']) = pre ++ [' ', '/', '>'] := by
  intro pre
  induction pre with
  | nil =>
    intro f _ hf
    cases f with
    | zero => simp at hf
    | succ f =>
      show replaceAllAux _ _ _ ('/' :: ['>']) = _
      have hpr : (['/', '>'] : Text).isPrefixOf ('/' :: ['>']) = true := by decide
      simp only [replaceAllAux, hpr, if_true]
      rw [show ('/' :: ['>'] : Text).drop (['/', '>'] : Text).length = [] from rfl,
        replaceAllAux_nil]
      rfl
  | cons c pre' ih =>
    intro f hc hf
    cases f with
    | zero => simp at hf
    | succ f =>
      have hnp : (['/', '>'] : Text).isPrefixOf (c :: (pre' ++ ['/', '>'])) = false := by
        cases hx : (['/', '>'] : Text).isPrefixOf (c :: (pre' ++ ['/', '>']))
        · rfl
        · rcases List.cons_prefix_cons.mp (List.isPrefixOf_iff_prefix.mp hx) with ⟨h1, _⟩
          exact absurd h1.symm (hc c (List.mem_cons_self _ _))
      show replaceAllAux _ _ (f + 1) (c :: (pre' ++ ['/', '>'])) = _
      simp only [replaceAllAux, hnp, Bool.false_eq_true, if_false]
      rw [ih f (fun z hz => hc z (List.mem_cons_of_mem c hz)) (by simp at hf ⊢; omega)]
      rfl

theorem replaceAll_token_variant (k : Nat) :
    replaceAll (token k) ['/', '>'] [' ', '/', '>'] = tokenVariant k := by
  have hshape : token k = ('<' :: 'x' :: natDigits k) ++ ['/', '>'] := by simp [token]
  have hshape2 : tokenVariant k = ('<' :: 'x' :: natDigits k) ++ [' ', '/', '>'] := by
    simp [tokenVariant]
  rw [hshape, hshape2]
  unfold replaceAll
  rw [if_neg (by simp)]
  refine replaceAllAux_no_slash _ _ ?_ (le_refl _)
  intro c hc
  rcases List.mem_cons.mp hc with rfl | hc
  · decide
  rcases List.mem_cons.mp hc with rfl | hc
  · decide
  · intro he
    subst he
    exact absurd (natDigits_digits k '/' hc) (by decide)

theorem restore_glue {t : Text} (hnox : ¬ (['<', 'x'] <:+: t)) :
    ∀ (ms : List PMatch) (pos k : Nat), AscChain t pos ms →
      _restore_placeholders (t.take pos ++ tailGlue t pos k ms) (tokenPairs k ms) = t := by
  intro ms
  induction ms with
  | nil =>
    intro pos k _
    simp [tailGlue, tokenPairs, _restore_placeholders, List.take_append_drop]
  | cons m rest ih =>
    intro pos k hch
    obtain ⟨hpos, hwfm, hch'⟩ := hch
    obtain ⟨hse, hel, hpay⟩ := hwfm
    have htext : t.take pos ++ tailGlue t pos k (m :: rest)
        = (t.take m.1 ++ token k) ++ tailGlue t m.2.1 (k + 1) rest := by
      rw [tailGlue, ← List.append_assoc, ← List.append_assoc, take_merge t hpos]
    have hcond : ∀ a₂, a₂ <:+ t.take m.1 → a₂ ≠ [] →
        ¬ (token k) <+: (a₂ ++ (token k ++ tailGlue t m.2.1 (k + 1) rest)) := by
      refine not_prefix_seg hnox ((List.take_prefix m.1 t).isInfix) (Or.inl rfl) ?_
      rw [show token k ++ tailGlue t m.2.1 (k + 1) rest
          = '<' :: (('x' :: (natDigits k ++ ['/', '>'])) ++ tailGlue t m.2.1 (k + 1) rest)
        from by simp [token]]
      simp
    have hnoR : ¬ token k <:+: tailGlue t m.2.1 (k + 1) rest :=
      noOcc_tailGlue hnox (Or.inl rfl) rest m.2.1 (k + 1) hch' (Nat.lt_succ_self k)
    have h1 : replaceAll ((t.take m.1 ++ token k) ++ tailGlue t m.2.1 (k + 1) rest)
          (token k) m.2.2
        = t.take m.2.1 ++ tailGlue t m.2.1 (k + 1) rest := by
      rw [replaceAll_append m.2.2 _ (token_ne_nil k) (t.take m.1) hcond]
      rw [replaceAll_no_match _ _ _ hnoR, hpay, slice, take_merge t (le_of_lt hse)]
    rw [htext]
    show _restore_placeholders
        (replaceAll
          (replaceAll ((t.take m.1 ++ token k) ++ tailGlue t m.2.1 (k + 1) rest)
            (token k) m.2.2)
          (replaceAll (token k) ['/', '>'] [' ', '/', '>']) m.2.2)
        (tokenPairs (k + 1) rest) = t
    rw [h1, replaceAll_token_variant k,
      replaceAll_no_match _ _ _
        (noOcc_state hnox (Or.inr rfl) rest m.2.1 (k + 1) hch' (Nat.lt_succ_self k))]
    exact ih m.2.1 (k + 1) hch'

/-! ### Well-formedness of the collected matches -/

theorem namedBody_le : ∀ (s : Text) (n L : Nat), namedBody s n = some L → L ≤ n + s.length + 2 := by
  intro s
  induction s with
  | nil => intro n L h; cases h
  | cons c cs ih =>
    intro n L h
    rw [namedBody] at h
    by_cases hc : c = ')'
    · rw [if_pos hc] at h
      by_cases hn : n = 0
      · rw [if_pos hn] at h; cases h
      · rw [if_neg hn] at h
        cases cs with
        | nil => cases h
        | cons d ds =>
          rw [convAfter] at h
          by_cases hd : isConv d = true
          · rw [if_pos hd] at h
            injection h with h'
            simp only [List.length_cons]
            omega
          · rw [if_neg hd] at h; cases h
    · rw [if_neg hc] at h
      have := ih (n + 1) L h
      simp only [List.length_cons]
      omega

theorem matchNamed_le (s : Text) (L : Nat) (h : matchNamed s = some L) : L ≤ s.length := by
  cases s with
  | nil => cases h
  | cons c1 s1 =>
    cases s1 with
    | nil => cases h
    | cons c2 rest =>
      rw [matchNamed] at h
      by_cases h1 : c1 = '%'
      · rw [if_pos h1] at h
        by_cases h2 : c2 = '('
        · rw [if_pos h2] at h
          have := namedBody_le rest 0 L h
          simp only [List.length_cons]
          omega
        · rw [if_neg h2] at h; cases h
      · rw [if_neg h1] at h; cases h

theorem matchPercent_le (s : Text) (L : Nat) (h : matchPercent s = some L) : L ≤ s.length := by
  cases s with
  | nil => cases h
  | cons c1 s1 =>
    cases s1 with
    | nil => cases h
    | cons c2 rest =>
      rw [matchPercent] at h
      by_cases h1 : c1 = '%'
      · rw [if_pos h1] at h
        by_cases h2 : (isConv c2 || c2 = '%') = true
        · rw [if_pos h2] at h
          injection h with h'
          simp only [List.length_cons]
          omega
        · rw [if_neg h2] at h; cases h
      · rw [if_neg h1] at h; cases h

theorem braceBody_le : ∀ (s : Text) (n L : Nat), braceBody s n = some L → L ≤ n + s.length + 1 := by
  intro s
  induction s with
  | nil => intro n L h; cases h
  | cons c cs ih =>
    intro n L h
    rw [braceBody] at h
    by_cases hc : c = '\x7d'
    · rw [if_pos hc] at h
      injection h with h'
      simp only [List.length_cons]
      omega
    · rw [if_neg hc] at h
      have := ih (n + 1) L h
      simp only [List.length_cons]
      omega

theorem matchBrace_le (s : Text) (L : Nat) (h : matchBrace s = some L) : L ≤ s.length := by
  cases s with
  | nil => cases h
  | cons c rest =>
    rw [matchBrace] at h
    by_cases h1 : c = '\x7b'
    · rw [if_pos h1] at h
      have := braceBody_le rest 0 L h
      simp only [List.length_cons]
      omega
    · rw [if_neg h1] at h; cases h

theorem finditerAux_wf {m : Text → Option Nat} (hm : ∀ s L, m s = some L → L ≤ s.length)
    (t : Text) :
    ∀ (fuel i : Nat), ∀ x ∈ finditerAux m fuel (t.drop i) i, MatchWF t x ∧ i ≤ x.1 := by
  intro fuel
  induction fuel with
  | zero => intro i x hx; simp [finditerAux] at hx
  | succ fuel ih =>
    intro i x hx
    rcases hdi : t.drop i with _ | ⟨c, cs⟩
    · rw [hdi] at hx; simp [finditerAux] at hx
    · rw [hdi] at hx
      have hil : t.length - i = cs.length + 1 := by
        have : (t.drop i).length = cs.length + 1 := by rw [hdi]; simp
        simpa using this
      cases hmi : m (c :: cs) with
      | none =>
        simp only [finditerAux, hmi] at hx
        have hcs : cs = t.drop (i + 1) := by
          have h1 : (t.drop i).drop 1 = t.drop (i + 1) := by rw [List.drop_drop]
          rw [hdi] at h1
          simpa using h1
        rw [hcs] at hx
        obtain ⟨hwf, hge⟩ := ih (i + 1) x hx
        exact ⟨hwf, by omega⟩
      | some L =>
        cases L with
        | zero =>
          simp only [finditerAux, hmi] at hx
          have hcs : cs = t.drop (i + 1) := by
            have h1 : (t.drop i).drop 1 = t.drop (i + 1) := by rw [List.drop_drop]
            rw [hdi] at h1
            simpa using h1
          rw [hcs] at hx
          obtain ⟨hwf, hge⟩ := ih (i + 1) x hx
          exact ⟨hwf, by omega⟩
        | succ L =>
          simp only [finditerAux, hmi] at hx
          have hL : L + 1 ≤ (c :: cs).length := hm _ _ hmi
          simp only [List.length_cons] at hL
          rcases List.mem_cons.mp hx with rfl | hx'
          · refine ⟨⟨?_, ?_, ?_⟩, ?_⟩
            · show i < i + L + 1
              omega
            · show i + L + 1 ≤ t.length
              omega
            · show (c :: cs).take (L + 1) = (t.drop i).take (i + L + 1 - i)
              rw [hdi]
              congr 1
              omega
            · show i ≤ i
              exact le_refl i
          · have hdrop : cs.drop L = t.drop (i + L + 1) := by
              have h1 : (t.drop i).drop (L + 1) = t.drop (i + (L + 1)) := by rw [List.drop_drop]
              rw [hdi] at h1
              have h2 : (c :: cs).drop (L + 1) = cs.drop L := rfl
              rw [h2] at h1
              rw [h1, show i + (L + 1) = i + L + 1 from by omega]
            rw [hdrop] at hx'
            obtain ⟨hwf, hge⟩ := ih (i + L + 1) x hx'
            exact ⟨hwf, by omega⟩

theorem allMatches_wf (t : Text) : ∀ x ∈ allMatches t, MatchWF t x := by
  have hfind : ∀ (m : Text → Option Nat), (∀ s L, m s = some L → L ≤ s.length) →
      ∀ x, x ∈ finditer m t → MatchWF t x := by
    intro m hm x hmem
    have h0 : t.drop 0 = t := by simp
    exact (finditerAux_wf hm t t.length 0 x (by rw [h0]; exact hmem)).1
  intro x hx
  rcases List.mem_append.mp hx with hx12 | hx3
  · rcases List.mem_append.mp hx12 with hx1 | hx2
    · exact hfind matchNamed matchNamed_le x hx1
    · exact hfind matchPercent matchPercent_le x hx2
  · exact hfind matchBrace matchBrace_le x hx3

/-! ### The descending stable sort of the matches -/

theorem insertDesc_perm (x : PMatch) : ∀ l : List PMatch, (insertDesc x l).Perm (x :: l) := by
  intro l
  induction l with
  | nil => exact List.Perm.refl _
  | cons y ys ih =>
    by_cases h : y.1 < x.1
    · simp [insertDesc, h]
    · have he : insertDesc x (y :: ys) = y :: insertDesc x ys := by simp [insertDesc, h]
      rw [he]
      exact (List.Perm.cons y ih).trans (List.Perm.swap x y ys)

theorem sortDesc_perm (ms : List PMatch) : (sortDesc ms).Perm ms := by
  have haux : ∀ (l acc : List PMatch),
      (l.foldl (fun acc x => insertDesc x acc) acc).Perm (acc ++ l) := by
    intro l
    induction l with
    | nil => intro acc; simp
    | cons a l ih =>
      intro acc
      have h1 : (a :: l).foldl (fun acc x => insertDesc x acc) acc
          = l.foldl (fun acc x => insertDesc x acc) (insertDesc a acc) := rfl
      rw [h1]
      refine (ih (insertDesc a acc)).trans ?_
      refine ((insertDesc_perm a acc).append_right l).trans ?_
      exact List.perm_middle.symm
  exact haux ms []

theorem insertDesc_sorted (x : PMatch) :
    ∀ l : List PMatch, l.Pairwise (fun a b => b.1 ≤ a.1) →
      (insertDesc x l).Pairwise (fun a b => b.1 ≤ a.1) := by
  intro l
  induction l with
  | nil => intro _; simp [insertDesc]
  | cons y ys ih =>
    intro h
    rw [List.pairwise_cons] at h
    by_cases hlt : y.1 < x.1
    · have he : insertDesc x (y :: ys) = x :: y :: ys := by simp [insertDesc, hlt]
      rw [he, List.pairwise_cons]
      refine ⟨?_, List.pairwise_cons.mpr h⟩
      intro z hz
      rcases List.mem_cons.mp hz with rfl | hz'
      · omega
      · have := h.1 z hz'
        omega
    · have he : insertDesc x (y :: ys) = y :: insertDesc x ys := by simp [insertDesc, hlt]
      rw [he, List.pairwise_cons]
      refine ⟨?_, ih h.2⟩
      intro z hz
      rcases List.mem_cons.mp ((insertDesc_perm x ys).mem_iff.mp hz) with rfl | hz'
      · omega
      · exact h.1 z hz'

theorem sortDesc_sorted (ms : List PMatch) :
    (sortDesc ms).Pairwise (fun a b => b.1 ≤ a.1) := by
  have haux : ∀ (l acc : List PMatch), acc.Pairwise (fun a b => b.1 ≤ a.1) →
      (l.foldl (fun acc x => insertDesc x acc) acc).Pairwise (fun a b => b.1 ≤ a.1) := by
    intro l
    induction l with
    | nil => intro acc hacc; simpa using hacc
    | cons a l ih => intro acc hacc; exact ih (insertDesc a acc) (insertDesc_sorted a acc hacc)
  exact haux ms [] (by simp)

/-! ### Chains of disjoint matches -/

theorem descChain_of (t : Text) : ∀ (ms : List PMatch) (bound : Nat),
    (∀ m ∈ ms, MatchWF t m) → ms.Pairwise (fun a b => b.1 ≤ a.1) → ms.Pairwise MDisj →
    (∀ m ∈ ms, m.2.1 ≤ bound) → DescChain t bound ms := by
  intro ms
  induction ms with
  | nil => intro bound _ _ _ _; trivial
  | cons m rest ih =>
    intro bound hwf hsor hdis hbd
    refine ⟨hwf m (List.mem_cons_self _ _), hbd m (List.mem_cons_self _ _),
      ih m.1 (fun x hx => hwf x (List.mem_cons_of_mem m hx))
        (List.pairwise_cons.mp hsor).2 (List.pairwise_cons.mp hdis).2 ?_⟩
    intro x hx
    rcases (List.pairwise_cons.mp hdis).1 x hx with h | h
    · have h1 := (hwf m (List.mem_cons_self _ _)).1
      have h2 := (List.pairwise_cons.mp hsor).1 x hx
      have h3 := (hwf x (List.mem_cons_of_mem m hx)).1
      omega
    · exact h

theorem ascChain_of (t : Text) : ∀ (ms : List PMatch) (pos : Nat),
    (∀ m ∈ ms, MatchWF t m) → ms.Pairwise (fun a b => a.1 ≤ b.1) → ms.Pairwise MDisj →
    (∀ m ∈ ms, pos ≤ m.1) → AscChain t pos ms := by
  intro ms
  induction ms with
  | nil => intro pos _ _ _ _; trivial
  | cons m rest ih =>
    intro pos hwf hsor hdis hpos
    refine ⟨hpos m (List.mem_cons_self _ _), hwf m (List.mem_cons_self _ _),
      ih m.2.1 (fun x hx => hwf x (List.mem_cons_of_mem m hx))
        (List.pairwise_cons.mp hsor).2 (List.pairwise_cons.mp hdis).2 ?_⟩
    intro x hx
    rcases (List.pairwise_cons.mp hdis).1 x hx with h | h
    · exact h
    · have h1 := (List.pairwise_cons.mp hsor).1 x hx
      have h2 := (hwf x (List.mem_cons_of_mem m hx)).1
      omega

theorem spanChain_of_desc {t : Text} : ∀ {ms : List PMatch} {bound : Nat},
    DescChain t bound ms → SpanChain bound ms := by
  intro ms
  induction ms with
  | nil => intro bound _; trivial
  | cons m rest ih =>
    intro bound hch
    obtain ⟨⟨hse, _, _⟩, hbd, hch'⟩ := hch
    exact ⟨hse, hbd, ih hch'⟩

theorem spanChain_mono : ∀ (ms : List PMatch) {b1 b2 : Nat}, b1 ≤ b2 →
    SpanChain b1 ms → SpanChain b2 ms := by
  intro ms
  cases ms with
  | nil => intro b1 b2 _ _; trivial
  | cons m rest =>
    intro b1 b2 h hch
    obtain ⟨hse, hb, hrest⟩ := hch
    exact ⟨hse, by omega, hrest⟩

theorem descChain_bound {t : Text} : ∀ {ms : List PMatch} {bound : Nat},
    DescChain t bound ms → ∀ x ∈ ms, x.1 < x.2.1 ∧ x.2.1 ≤ bound := by
  intro ms
  induction ms with
  | nil => intro bound _ x hx; exact absurd hx (List.not_mem_nil x)
  | cons m rest ih =>
    intro bound hch x hx
    obtain ⟨⟨hse, hel, _⟩, hbd, hch'⟩ := hch
    rcases List.mem_cons.mp hx with rfl | hx'
    · exact ⟨hse, hbd⟩
    · obtain ⟨h1, h2⟩ := ih hch' x hx'
      exact ⟨h1, by omega⟩

theorem descChain_take : ∀ (ms : List PMatch) (t : Text) (n bound : Nat), bound ≤ n →
    n ≤ t.length → DescChain t bound ms → DescChain (t.take n) bound ms := by
  intro ms
  induction ms with
  | nil => intro t n bound _ _ _; trivial
  | cons m rest ih =>
    intro t n bound hbn hnt hch
    obtain ⟨⟨hse, hel, hpay⟩, hbd, hch'⟩ := hch
    refine ⟨⟨hse, ?_, ?_⟩, hbd, ih t n m.1 (by omega) hnt hch'⟩
    · simp only [List.length_take]
      omega
    · rw [hpay]
      unfold slice
      rw [List.drop_take, List.take_take]
      congr 1
      omega

/-! ### What the replacement loop of `_protect_placeholders` produces -/

theorem protectGo_append : ∀ (msd : List PMatch) (c : Nat) (a b : Text),
    SpanChain a.length msd →
    protectGo msd c (a ++ b) = ((protectGo msd c a).1 ++ b, (protectGo msd c a).2) := by
  intro msd
  induction msd with
  | nil => intro c a b _; rfl
  | cons m rest ih =>
    intro c a b hch
    obtain ⟨hse, hel, hch'⟩ := hch
    have h1 : (a ++ b).take m.1 = a.take m.1 := List.take_append_of_le_length (by omega)
    have h2 : (a ++ b).drop m.2.1 = a.drop m.2.1 ++ b := List.drop_append_of_le_length hel
    have hch2 : SpanChain (a.take m.1 ++ token c ++ a.drop m.2.1).length rest := by
      refine spanChain_mono rest ?_ hch'
      simp only [List.length_append, List.length_take]
      omega
    simp only [protectGo]
    rw [h1, h2]
    have h3 : a.take m.1 ++ token c ++ (a.drop m.2.1 ++ b)
        = (a.take m.1 ++ token c ++ a.drop m.2.1) ++ b := by
      simp [List.append_assoc]
    rw [h3, ih (c - 1) _ b hch2]

theorem protectGo_spec : ∀ (msd : List PMatch) (c : Nat) (t : Text), SpanChain t.length msd →
    protectGo msd c t = (descGlue t c msd, descPairs c msd) := by
  intro msd
  induction msd with
  | nil => intro c t _; rfl
  | cons m rest ih =>
    intro c t hch
    obtain ⟨hse, hel, hch'⟩ := hch
    have hlt : (t.take m.1).length = m.1 := by
      simp only [List.length_take]
      omega
    have hch2 : SpanChain (t.take m.1).length rest := by rw [hlt]; exact hch'
    simp only [protectGo]
    rw [List.append_assoc, protectGo_append rest (c - 1) (t.take m.1) _ hch2,
      ih (c - 1) (t.take m.1) hch2]
    simp [descGlue, descPairs, List.append_assoc]

theorem tailGlue_snoc : ∀ (ms : List PMatch) (t : Text) (pos k : Nat) (m : PMatch),
    (∀ m' ∈ ms, m'.1 ≤ m.1) →
    tailGlue t pos k (ms ++ [m])
      = tailGlue (t.take m.1) pos k ms ++ token (k + ms.length) ++ t.drop m.2.1 := by
  intro ms
  induction ms with
  | nil =>
    intro t pos k m _
    simp only [List.nil_append, tailGlue, List.length_nil, Nat.add_zero]
    rw [List.drop_take]
  | cons m' ms' ih =>
    intro t pos k m hle
    have h1 : (m' :: ms') ++ [m] = m' :: (ms' ++ [m]) := rfl
    rw [h1, tailGlue, ih t m'.2.1 (k + 1) m (fun z hz => hle z (List.mem_cons_of_mem m' hz)),
      tailGlue]
    have hseg : ((t.take m.1).drop pos).take (m'.1 - pos) = (t.drop pos).take (m'.1 - pos) := by
      rw [List.drop_take, List.take_take]
      congr 1
      have := hle m' (List.mem_cons_self _ _)
      omega
    rw [hseg, List.length_cons, show k + (ms'.length + 1) = k + 1 + ms'.length from by omega]
    simp [List.append_assoc]

theorem tokenPairs_snoc : ∀ (ms : List PMatch) (k : Nat) (m : PMatch),
    tokenPairs k (ms ++ [m]) = tokenPairs k ms ++ [(token (k + ms.length), m.2.2)] := by
  intro ms
  induction ms with
  | nil => intro k m; simp [tokenPairs]
  | cons m' ms' ih =>
    intro k m
    have h1 : (m' :: ms') ++ [m] = m' :: (ms' ++ [m]) := rfl
    rw [h1]
    simp only [tokenPairs, ih (k + 1) m, List.cons_append, List.length_cons]
    rw [show k + (ms'.length + 1) = k + 1 + ms'.length from by omega]

theorem descGlue_eq_tailGlue : ∀ (msd : List PMatch) (t : Text) (c : Nat),
    DescChain t t.length msd → msd.length ≤ c →
    descGlue t c msd = tailGlue t 0 (c - msd.length + 1) msd.reverse := by
  intro msd
  induction msd with
  | nil => intro t c _ _; simp [descGlue, tailGlue]
  | cons m rest ih =>
    intro t c hch hc
    obtain ⟨⟨hse, hel, hpay⟩, hbd, hch'⟩ := hch
    simp only [List.length_cons] at hc
    have hlt : (t.take m.1).length = m.1 := by
      simp only [List.length_take]
      omega
    have hch2 : DescChain (t.take m.1) (t.take m.1).length rest := by
      rw [hlt]
      exact descChain_take rest t m.1 m.1 (le_refl _) (by omega) hch'
    simp only [descGlue, List.reverse_cons, List.length_cons]
    rw [ih (t.take m.1) (c - 1) hch2 (by omega)]
    rw [tailGlue_snoc rest.reverse t 0 (c - (rest.length + 1) + 1) m ?_]
    · rw [List.length_reverse,
        show c - (rest.length + 1) + 1 + rest.length = c from by omega,
        show c - 1 - rest.length + 1 = c - (rest.length + 1) + 1 from by omega]
    · intro z hz
      obtain ⟨h1, h2⟩ := descChain_bound hch' z (List.mem_reverse.mp hz)
      omega

theorem descPairs_reverse : ∀ (msd : List PMatch) (c : Nat), msd.length ≤ c →
    (descPairs c msd).reverse = tokenPairs (c - msd.length + 1) msd.reverse := by
  intro msd
  induction msd with
  | nil => intro c _; simp [descPairs, tokenPairs]
  | cons m rest ih =>
    intro c hc
    simp only [List.length_cons] at hc
    simp only [descPairs, List.reverse_cons, List.length_cons]
    rw [ih (c - 1) (by omega), tokenPairs_snoc rest.reverse _ m, List.length_reverse,
      show c - 1 - rest.length + 1 = c - (rest.length + 1) + 1 from by omega,
      show c - (rest.length + 1) + 1 + rest.length = c from by omega]

/-! ### The characterisation of `_protect_placeholders` -/

theorem tokenPairs_map_fst : ∀ (ms : List PMatch) (k : Nat),
    (tokenPairs k ms).map Prod.fst = (List.range' k ms.length).map token := by
  intro ms
  induction ms with
  | nil => intro k; rfl
  | cons m rest ih =>
    intro k
    simp only [tokenPairs, List.map_cons, List.length_cons, List.range'_succ, ih (k + 1)]

theorem tokenPairs_map_snd : ∀ (ms : List PMatch) (k : Nat),
    (tokenPairs k ms).map Prod.snd = ms.map (fun m => m.2.2) := by
  intro ms
  induction ms with
  | nil => intro k; rfl
  | cons m rest ih =>
    intro k
    simp only [tokenPairs, List.map_cons, ih (k + 1)]

/-- What the source's protect routine computes, on any text whose matches
are pairwise non-overlapping: the canonical left-to-right interleaving of
original segments with tokens numbered 1..N, and the ascending token map. -/
theorem protect_spec (t : Text) (hdisj : (allMatches t).Pairwise MDisj) :
    _protect_placeholders t = (tailGlue t 0 1 (ascMatches t), tokenPairs 1 (ascMatches t)) := by
  have hperm : (sortDesc (allMatches t)).Perm (allMatches t) := sortDesc_perm _
  have hwf : ∀ x ∈ sortDesc (allMatches t), MatchWF t x :=
    fun x hx => allMatches_wf t x (hperm.mem_iff.mp hx)
  have hsor := sortDesc_sorted (allMatches t)
  have hsymm : ∀ {a b : PMatch}, MDisj a b → MDisj b a := fun h => Or.symm h
  have hdis : (sortDesc (allMatches t)).Pairwise MDisj := (hperm.pairwise_iff hsymm).mpr hdisj
  have hdesc : DescChain t t.length (sortDesc (allMatches t)) :=
    descChain_of t _ t.length hwf hsor hdis (fun x hx => (hwf x hx).2.1)
  have hspan : SpanChain t.length (sortDesc (allMatches t)) := spanChain_of_desc hdesc
  have hn : (sortDesc (allMatches t)).length - (sortDesc (allMatches t)).length + 1 = 1 := by
    omega
  simp only [_protect_placeholders]
  rw [protectGo_spec _ _ t hspan]
  show (descGlue t _ _, (descPairs _ _).reverse) = _
  rw [descGlue_eq_tailGlue _ t _ hdesc (le_refl _), descPairs_reverse _ _ (le_refl _), hn]
  rfl

theorem ascMatches_chain (t : Text) (hdisj : (allMatches t).Pairwise MDisj) :
    AscChain t 0 (ascMatches t) := by
  have hperm : (sortDesc (allMatches t)).Perm (allMatches t) := sortDesc_perm _
  have hwf : ∀ x ∈ ascMatches t, MatchWF t x := fun x hx =>
    allMatches_wf t x (hperm.mem_iff.mp (List.mem_reverse.mp hx))
  have hsor : (ascMatches t).Pairwise (fun a b => a.1 ≤ b.1) := by
    rw [ascMatches, List.pairwise_reverse]
    exact sortDesc_sorted (allMatches t)
  have hsymm : ∀ {a b : PMatch}, MDisj a b → MDisj b a := fun h => Or.symm h
  have hdis : (ascMatches t).Pairwise MDisj := by
    rw [ascMatches, List.pairwise_reverse]
    exact ((hperm.pairwise_iff hsymm).mpr hdisj).imp (fun h => Or.symm h)
  exact ascChain_of t (ascMatches t) 0 hwf hsor hdis (fun _ _ => Nat.zero_le _)

/-! ### The sorted-comparison of `_validate_placeholders` versus multisets -/

theorem textLe_total (a : Text) : ∀ b, textLe a b = true ∨ textLe b a = true := by
  induction a with
  | nil => intro b; left; rfl
  | cons c cs ih =>
    intro b
    cases b with
    | nil => right; rfl
    | cons d ds =>
      by_cases hcd : c = d
      · subst hcd
        simpa [textLe] using ih ds
      · rcases lt_or_gt_of_ne hcd with h | h

        · left; simp [textLe, hcd, h]
        · right; simp [textLe, Ne.symm hcd, h]

theorem textLe_trans (a : Text) :
    ∀ b c, textLe a b = true → textLe b c = true → textLe a c = true := by
  induction a with
  | nil => intro b c _ _; rfl
  | cons x xs ih =>
    intro b c hab hbc
    cases b with
    | nil => simp [textLe] at hab
    | cons y ys =>
      cases c with
      | nil => simp [textLe] at hbc
      | cons z zs =>
        by_cases hxy : x = y <;> by_cases hyz : y = z
        · subst hxy; subst hyz
          simp only [textLe, if_pos rfl] at hab hbc ⊢
          exact ih ys zs hab hbc
        · subst hxy
          simp only [textLe, if_pos rfl] at hab
          simp only [textLe, hyz, if_neg] at hbc
          have hlt : x < z := of_decide_eq_true hbc
          simp [textLe, hyz, hlt]
        · subst hyz
          simp only [textLe, hxy, if_neg] at hab
          have hlt : x < y := of_decide_eq_true hab
          simp [textLe, hxy, hlt]
        · simp only [textLe, hxy, if_neg] at hab
          simp only [textLe, hyz, if_neg] at hbc
          have hlt : x < z := lt_trans (of_decide_eq_true hab) (of_decide_eq_true hbc)
          have hxz : x ≠ z := ne_of_lt hlt
          simp [textLe, hxz, hlt]

theorem textLe_antisymm (a : Text) : ∀ b, textLe a b = true → textLe b a = true → a = b := by
  induction a with
  | nil =>
    intro b _ hba
    cases b with
    | nil => rfl
    | cons d ds => simp [textLe] at hba
  | cons x xs ih =>
    intro b hab hba
    cases b with
    | nil => simp [textLe] at hab
    | cons y ys =>
      by_cases hxy : x = y
      · subst hxy
        simp only [textLe, if_pos rfl] at hab hba
        rw [ih ys hab hba]
      · simp only [textLe, hxy, if_neg] at hab
        simp only [textLe, Ne.symm hxy, if_neg] at hba
        exact absurd (of_decide_eq_true hba) (lt_asymm (of_decide_eq_true hab))

theorem insertAsc_perm (x : Text) : ∀ l : List Text, (insertAsc x l).Perm (x :: l) := by
  intro l
  induction l with
  | nil => exact List.Perm.refl _
  | cons y ys ih =>
    by_cases h : textLe y x = true
    · have he : insertAsc x (y :: ys) = y :: insertAsc x ys := by simp [insertAsc, h]
      rw [he]
      exact (List.Perm.cons y ih).trans (List.Perm.swap x y ys)
    · simp [insertAsc, h]

theorem pySorted_perm_aux (l : List Text) :
    ∀ acc : List Text, (l.foldl (fun acc x => insertAsc x acc) acc).Perm (acc ++ l) := by
  induction l with
  | nil => intro acc; simp
  | cons a l ih =>
    intro acc
    have h1 : (a :: l).foldl (fun acc x => insertAsc x acc) acc
        = l.foldl (fun acc x => insertAsc x acc) (insertAsc a acc) := rfl
    rw [h1]
    refine (ih (insertAsc a acc)).trans ?_
    refine ((insertAsc_perm a acc).append_right l).trans ?_
    exact List.perm_middle.symm

theorem pySorted_perm (l : List Text) : (pySorted l).Perm l :=
  pySorted_perm_aux l []

theorem insertAsc_sorted (x : Text) :
    ∀ l : List Text, l.Sorted (fun a b => textLe a b = true) →
      (insertAsc x l).Sorted (fun a b => textLe a b = true) := by
  intro l
  induction l with
  | nil => intro _; simp [insertAsc]
  | cons y ys ih =>
    intro h
    rw [List.sorted_cons] at h
    by_cases hle : textLe y x = true
    · have hs : (insertAsc x ys).Sorted (fun a b => textLe a b = true) := ih h.2
      have hmem : ∀ z ∈ insertAsc x ys, textLe y z = true := by
        intro z hz
        rcases List.mem_cons.mp ((insertAsc_perm x ys).mem_iff.mp hz) with rfl | hz'
        · exact hle
        · exact h.1 z hz'
      have he : insertAsc x (y :: ys) = y :: insertAsc x ys := by simp [insertAsc, hle]
      rw [he, List.sorted_cons]
      exact ⟨hmem, hs⟩
    · have hxy : textLe x y = true := by
        rcases textLe_total x y with h' | h'
        · exact h'
        · exact absurd h' hle
      have he : insertAsc x (y :: ys) = x :: y :: ys := by simp [insertAsc, hle]
      rw [he, List.sorted_cons]
      refine ⟨?_, List.sorted_cons.mpr h⟩
      intro z hz
      rcases List.mem_cons.mp hz with rfl | hz'
      · exact hxy
      · exact textLe_trans x y z hxy (h.1 z hz')

theorem pySorted_sorted (l : List Text) :
    (pySorted l).Sorted (fun a b => textLe a b = true) := by
  have : ∀ acc : List Text, acc.Sorted (fun a b => textLe a b = true) →
      (l.foldl (fun acc x => insertAsc x acc) acc).Sorted (fun a b => textLe a b = true) := by
    induction l with
    | nil => intro acc hacc; simpa using hacc
    | cons a l ih =>
      intro acc hacc
      exact ih (insertAsc a acc) (insertAsc_sorted a acc hacc)
  exact this [] (by simp)

theorem pySorted_eq_iff (l₁ l₂ : List Text) : pySorted l₁ = pySorted l₂ ↔ l₁.Perm l₂ := by
  have hanti : IsAntisymm Text (fun a b => textLe a b = true) := ⟨fun a b => textLe_antisymm a b⟩
  constructor
  · intro h
    exact (pySorted_perm l₁).symm.trans (h ▸ pySorted_perm l₂)
  · intro hp
    exact List.eq_of_perm_of_sorted
      ((pySorted_perm l₁).trans (hp.trans (pySorted_perm l₂).symm))
      (pySorted_sorted l₁) (pySorted_sorted l₂)

/-! ### Claim theorems -/

/-- C1 counterexample.  The claim asserts the round trip for any text with
well-formed placeholders.  The text consisting of a literal token-shaped
substring followed by one well-formed brace placeholder refutes it: protect
turns the placeholder into the token already literally present, and restore
(a global string replace) rewrites both occurrences, yielding a text
different from the original. -/
theorem C1_counterexample :
    _restore_placeholders
        (_protect_placeholders ['<', 'x', '1', '/', '>', '\x7b', 'a', '\x7d']).1
        (_protect_placeholders ['<', 'x', '1', '/', '>', '\x7b', 'a', '\x7d']).2
      ≠ ['<', 'x', '1', '/', '>', '\x7b', 'a', '\x7d'] := by
  decide

/-- C1 (amended).  Round trip of the placeholder codec: for any text whose
placeholder matches are pairwise non-overlapping (the reading of
"well-formed placeholders" §4.1 suggests) and which contains no occurrence
of the substring "<x" (no pre-existing token-shaped text, which a global
string replace would also rewrite), restoring the protected text with the
returned token map yields the original text. -/
theorem C1_roundtrip (t : Text) (hdisj : (allMatches t).Pairwise MDisj)
    (hnox : ¬ (['<', 'x'] <:+: t)) :
    _restore_placeholders (_protect_placeholders t).1 (_protect_placeholders t).2 = t := by
  rw [protect_spec t hdisj]
  show _restore_placeholders (tailGlue t 0 1 (ascMatches t)) (tokenPairs 1 (ascMatches t)) = t
  have h := restore_glue hnox (ascMatches t) 0 1 (ascMatches_chain t hdisj)
  simpa using h

/-- C1 witness: the round trip on a concrete two-placeholder text. -/
theorem C1_witness :
    _restore_placeholders
        (_protect_placeholders ['%', 'd', ' ', '\x7b', 'a', '\x7d']).1
        (_protect_placeholders ['%', 'd', ' ', '\x7b', 'a', '\x7d']).2
      = ['%', 'd', ' ', '\x7b', 'a', '\x7d'] :=
  C1_roundtrip _ (by decide) (by decide)

/-- C9.  Token-numbering invariant: for every text whose placeholder matches
are pairwise non-overlapping, the protected text is the left-to-right
interleaving of the original segments with tokens numbered ascending 1..N
(`tailGlue` starting at index 1 over the matches in ascending start order),
and the token map is the (token, placeholder) list in original-text order
(`tokenPairs`), every occurrence getting its own distinct token (the token
components are pairwise distinct) and the payloads being exactly the matched
placeholders in text order. -/
theorem C9_token_numbering (t : Text) (hdisj : (allMatches t).Pairwise MDisj) :
    _protect_placeholders t = (tailGlue t 0 1 (ascMatches t), tokenPairs 1 (ascMatches t))
      ∧ ((_protect_placeholders t).2.map Prod.fst).Nodup
      ∧ (_protect_placeholders t).2.map Prod.snd = (ascMatches t).map (fun m => m.2.2) := by
  have hps := protect_spec t hdisj
  refine ⟨hps, ?_, ?_⟩
  · rw [hps]
    show ((tokenPairs 1 (ascMatches t)).map Prod.fst).Nodup
    rw [tokenPairs_map_fst]
    exact List.Nodup.map token_injective (List.nodup_range' 1 _)
  · rw [hps]
    show (tokenPairs 1 (ascMatches t)).map Prod.snd = _
    exact tokenPairs_map_snd _ 1

/-- C9 witness: the characterisation evaluated on a concrete text with a
printf placeholder and a brace placeholder. -/
theorem C9_witness :
    _protect_placeholders ['%', 'd', ' ', '\x7b', 'a', '\x7d']
        = (['<', 'x', '1', '/', '>', ' ', '<', 'x', '2', '/', '>'],
           [(['<', 'x', '1', '/', '>'], ['%', 'd']),
            (['<', 'x', '2', '/', '>'], ['\x7b', 'a', '\x7d'])])
      ∧ ((_protect_placeholders ['%', 'd', ' ', '\x7b', 'a', '\x7d']).2.map Prod.fst).Nodup :=
  have h := C9_token_numbering ['%', 'd', ' ', '\x7b', 'a', '\x7d'] (by decide)
  ⟨h.1.trans (by decide), h.2.1⟩

/-- C2 (code bug).  The claim says a validation-failure fallback entry is
committed with `msgstr = msgid` AND the fuzzy flag set, which is also what
the source intends (it appends "fuzzy" in the fallback branch, commented
"copies the original as fallback").  But the very next statement removes the
flag again, because it re-validates the committed text, and the committed
text is now the msgid itself, which trivially validates against itself.
Evaluated at a failing input — msgid with two placeholders, provider
returning a placeholder-free text, so restore, validation and repair all
fail — the committed entry has `msgstr = msgid` but an empty flag list: the
fuzzy flag the fallback just appended has been erased (and the entry is even
counted as translated). -/
theorem C2_fallback_fuzzy_bug :
    processEntry (fun _ => Except.ok ['x']) ⟨['%', 's', ' ', '%', 's'], [], [], false⟩ =
      (⟨['%', 's', ' ', '%', 's'], ['%', 's', ' ', '%', 's'], [], false⟩, true) := by
  decide

/-- C3 counterexample.  The claim asserts that under a provider that always
raises, every processed entry ends with `fuzzy == true` AND
`msgstr == msgid`.  A previously fuzzy entry with a non-empty msgstr is
processed (fuzzy entries are re-queued), the provider raises, and the source
only fills msgid into an *empty* msgstr — so this entry keeps its old
msgstr `"b"`, different from its msgid `"a"`. -/
theorem C3_counterexample :
    (translate_entries (fun _ => Except.error "boom")
        (entries_to_translate [⟨['a'], ['b'], ["fuzzy"], false⟩])).1 =
      [⟨['a'], ['b'], ["fuzzy"], false⟩] ∧ (['b'] : Text) ≠ (['a'] : Text) := by
  decide

/-- C3 (amended).  Fallback safety under total provider failure: every
processed entry with a non-empty msgid ends fuzzy-flagged with a non-empty
msgstr; entries whose msgstr was empty get `msgstr = msgid`, and a
previously non-empty msgstr is preserved unchanged (rather than being
overwritten with the msgid, as the claim had it). -/
theorem C3_fallback_safety (api : Text → Except String Text) (msg : String)
    (po : List POEntry) (h : ∀ t, api t = Except.error msg) :
    (translate_entries api (entries_to_translate po)).1
        = (entries_to_translate po).map (fun e => (processEntry api e).1)
      ∧ ∀ e ∈ entries_to_translate po, e.msgid ≠ [] →
          "fuzzy" ∈ (processEntry api e).1.flags
            ∧ (processEntry api e).1.msgstr ≠ []
            ∧ (e.msgstr = [] → (processEntry api e).1.msgstr = e.msgid)
            ∧ (e.msgstr ≠ [] → (processEntry api e).1.msgstr = e.msgstr) := by
  refine ⟨translate_entries_fst api _, ?_⟩
  intro e _ hmid
  have hne : e.msgid.isEmpty = false := by simp [List.isEmpty_iff, hmid]
  simp only [processEntry, hne, h, Bool.false_eq_true, if_false]
  refine ⟨?_, ?_, ?_, ?_⟩
  · by_cases hc : "fuzzy" ∈ e.flags <;> simp [hc]
  · by_cases hm : e.msgstr.isEmpty = true
    · simp [hm, hmid]
    · simp only [hm, Bool.false_eq_true, if_false]
      simpa [List.isEmpty_iff] using hm
  · intro hm0; simp [hm0]
  · intro hm1
    have hm : e.msgstr.isEmpty = false := by simp [List.isEmpty_iff, hm1]
    simp [hm]

/-- C3 witness: a concrete untranslated entry under an always-failing
provider ends fuzzy with `msgstr = msgid`. -/
theorem C3_witness :
    "fuzzy" ∈ (processEntry (fun _ => Except.error "boom") ⟨['a'], [], [], false⟩).1.flags
      ∧ (processEntry (fun _ => Except.error "boom") ⟨['a'], [], [], false⟩).1.msgstr = ['a'] :=
  have h := C3_fallback_safety (fun _ => Except.error "boom") "boom"
    [⟨['a'], [], [], false⟩] (fun _ => rfl)
  ⟨(h.2 ⟨['a'], [], [], false⟩ (by decide) (by decide)).1,
   (h.2 ⟨['a'], [], [], false⟩ (by decide) (by decide)).2.2.1 rfl⟩

/-- C4 (code bug).  The claim (with the specification) says an entry that
ends in the fuzzy fallback is NOT counted as translated.  In the source,
`translated_count += 1` is the last statement of the `try` block and runs on
the fallback path too: a one-entry catalog whose translation fails
validation and repair still reports one translated string. -/
theorem C4_count_bug :
    (translate_entries (fun _ => Except.ok ['x'])
        [⟨['%', 's', ' ', '%', 's'], [], [], false⟩]).2 = 1 := by
  decide

/-- C5 (code bug).  The claim (and the source's own comment, which names
both variants) says restore repairs an extra space before the self-closing
slash and a stray space after the opening marker.  The code only replaces
the exact token and the first variant: the second variant is left unchanged,
while the first is indeed restored. -/
theorem C5_restore_variant_bug :
    _restore_placeholders ['<', ' ', 'x', '1', '/', '>']
        [(['<', 'x', '1', '/', '>'], ['%', 's'])] = ['<', ' ', 'x', '1', '/', '>']
      ∧ _restore_placeholders ['<', 'x', '1', ' ', '/', '>']
        [(['<', 'x', '1', '/', '>'], ['%', 's'])] = ['%', 's'] := by
  decide

/-- C6.  `_validate_placeholders` is exactly the per-family sorted-multiset
comparison: it returns true iff, for each of the three pattern families
independently, the matches in the original and in the translation agree as
multisets (are permutations of each other); in particular it returns false
whenever the occurrence counts of some placeholder differ. -/
theorem C6_validate_multiset (a b : Text) :
    (_validate_placeholders a b = true ↔
        ∀ m ∈ FORMAT_PATTERNS, (findall m a).Perm (findall m b))
      ∧ ∀ m ∈ FORMAT_PATTERNS, ∀ ph : Text,
          (findall m a).count ph ≠ (findall m b).count ph →
            _validate_placeholders a b = false := by
  have hiff : _validate_placeholders a b = true ↔
      ∀ m ∈ FORMAT_PATTERNS, (findall m a).Perm (findall m b) := by
    unfold _validate_placeholders
    rw [List.all_eq_true]
    constructor
    · intro h m hm
      exact (pySorted_eq_iff _ _).mp (by simpa using h m hm)
    · intro h m hm
      simpa using (pySorted_eq_iff _ _).mpr (h m hm)
  refine ⟨hiff, ?_⟩
  intro m hm ph hcount
  cases hv : _validate_placeholders a b
  · rfl
  · exact absurd (((hiff.mp hv) m hm).countP_eq (· == ph)) hcount

/-- C6 witness: counts of the positional-printf placeholder differ, so
validation returns false. -/
theorem C6_witness :
    _validate_placeholders ['%', 's', ' ', '%', 's'] ['%', 's'] = false :=
  (C6_validate_multiset ['%', 's', ' ', '%', 's'] ['%', 's']).2 matchPercent
    (by simp [FORMAT_PATTERNS]) ['%', 's'] (by decide)

/-- C7 counterexample.  The claim says a missing template makes
`translate_project` raise immediately, attempting nothing and recording no
per-language result.  In the source each language's `translate_language` is
called inside a per-language try/except: with a missing template the batch
runs to completion and records a (failed) result for all 29 languages. -/
theorem C7_counterexample :
    translate_project none (fun _ => none) (fun _ _ => Except.ok ['x']) ≠ []
      ∧ (translate_project none (fun _ => none) (fun _ _ => Except.ok ['x'])).length = 29 := by
  decide

/-- C7 (amended).  A missing template makes every `translate_language` call
fail, but `translate_project` catches each failure per language: it returns
normally with every supported language recorded as unsuccessful, in order. -/
theorem C7_missing_template :
    (∀ (existing : Option (List POEntry)) (api : Text → Except String Text),
        (translate_language none existing api).isOk = false)
      ∧ ∀ (existingFor : String → Option (List POEntry))
          (api : String → Text → Except String Text),
          translate_project none existingFor api
            = SUPPORTED_LANGUAGES.map (fun l => (l, false)) := by
  refine ⟨fun _ _ => rfl, fun _ _ => ?_⟩
  simp [translate_project, translate_language]

/-- C8 counterexample.  The claim says the selected sequence is in catalog
order.  The source concatenates the untranslated entries with the fuzzy
entries, so a fuzzy entry that precedes an untranslated one in the catalog
comes after it in the selection, differing from the catalog-order filter the
claim describes. -/
theorem C8_counterexample :
    entries_to_translate [⟨['a'], ['x'], ["fuzzy"], false⟩, ⟨['b'], [], [], false⟩]
      ≠ entriesNeedingTranslationSpec
          [⟨['a'], ['x'], ["fuzzy"], false⟩, ⟨['b'], [], [], false⟩] := by
  decide

/-- C8 (amended).  The selection consists, as a set, of exactly the
non-obsolete entries that are untranslated (empty msgstr) or fuzzy; but its
order is: the untranslated non-fuzzy entries in catalog order, followed by
the fuzzy entries in catalog order — not global catalog order.  (Empty-msgid
entries are not excluded from the selection; the loop skips them when
processing.) -/
theorem C8_selection (po : List POEntry) :
    (∀ e : POEntry, e ∈ entries_to_translate po ↔
        e ∈ po ∧ e.obsolete = false ∧ (e.msgstr = [] ∨ "fuzzy" ∈ e.flags))
      ∧ entries_to_translate po
          = po.filter (fun e => !e.obsolete && e.msgstr.isEmpty && !(e.flags.contains "fuzzy"))
            ++ po.filter (fun e => !e.obsolete && e.flags.contains "fuzzy") := by
  constructor
  · intro e
    simp only [entries_to_translate, untranslated_entries, fuzzy_entries, List.mem_append,
      List.mem_filter, POEntry.translated, POEntry.fuzzy]
    by_cases hf : "fuzzy" ∈ e.flags <;> by_cases hm : e.msgstr = [] <;>
      cases ho : e.obsolete <;> simp [hf, hm, ho, List.isEmpty_iff]
  · have h1 : untranslated_entries po
        = po.filter (fun e => !e.obsolete && e.msgstr.isEmpty && !(e.flags.contains "fuzzy")) := by
      unfold untranslated_entries
      apply List.filter_congr
      intro e _
      by_cases hf : "fuzzy" ∈ e.flags <;> cases ho : e.obsolete <;> cases hm : e.msgstr.isEmpty <;>
        simp [POEntry.translated, POEntry.fuzzy, ho, hm, hf]
    have h2 : fuzzy_entries po = po.filter (fun e => !e.obsolete && e.flags.contains "fuzzy") := by
      unfold fuzzy_entries
      apply List.filter_congr
      intro e _
      by_cases hf : "fuzzy" ∈ e.flags <;> cases ho : e.obsolete <;>
        simp [POEntry.fuzzy, ho, hf]
    rw [entries_to_translate, h1, h2]

/-- C10.  `_fix_placeholders` decides "missing" by membership, not multiset
count: when every placeholder occurring in the original also occurs (at
least once) in the translation, for every pattern family, the repair loop
never fires and the translation is returned unchanged.  In particular a
translation that dropped one of several duplicate occurrences of the same
placeholder is never repaired. -/
theorem C10_fix_membership (a b : Text)
    (h : ∀ m ∈ FORMAT_PATTERNS, ∀ ph ∈ findall m a, ph ∈ findall m b) :
    _fix_placeholders a b = b := by
  have hc : ∀ m, m ∈ FORMAT_PATTERNS → ∀ ph ∈ findall m a, (findall m b).contains ph = true :=
    fun m hm ph hph => List.elem_iff.mpr (h m hm ph hph)
  have h1 : matchNamed ∈ FORMAT_PATTERNS := by simp [FORMAT_PATTERNS]
  have h2 : matchPercent ∈ FORMAT_PATTERNS := by simp [FORMAT_PATTERNS]
  have h3 : matchBrace ∈ FORMAT_PATTERNS := by simp [FORMAT_PATTERNS]
  show ([matchNamed, matchPercent, matchBrace].foldl
      (fun tr m => fixLoop (findall m tr) (findall m a) tr) b) = b
  simp only [List.foldl]
  rw [fixLoop_of_contains _ _ b (hc matchNamed h1),
    fixLoop_of_contains _ _ b (hc matchPercent h2),
    fixLoop_of_contains _ _ b (hc matchBrace h3)]

/-- C10 witness: a translation that kept one of the two `%s` occurrences of
the original (so every distinct placeholder is still present) is returned
unchanged by the repair. -/
theorem C10_witness :
    _fix_placeholders ['%', 's', ' ', '%', 's'] ['x', ' ', '%', 's'] = ['x', ' ', '%', 's'] :=
  C10_fix_membership _ _ (by
    intro m hm
    simp only [FORMAT_PATTERNS, List.mem_cons, List.not_mem_nil, or_false] at hm
    rcases hm with rfl | rfl | rfl <;> decide)

end LangForge
